import Mathlib

/-!
Verification of the Hybrid Knowledge Retrieval engine
(`backend/oracle/services/hybrid_retrieval.py`) against its
natural-language specification.

The Python service is shallowly embedded: pure methods become Lean
functions over explicit data, the in-memory cache becomes an explicit
association list threaded through the orchestrator, Python `float`
scores and timestamps are modelled as exact rationals (`ℚ`), and the
dynamically typed values that flow through the result-processing loop
are modelled by an explicit sum type so that the loop's attribution of
backend results can be examined faithfully.  Fallible paths (attribute
errors on dynamically typed values) are modelled with `Except`.
-/

namespace Oracle

/-- A dynamically typed metadata value (Python `Dict[str, Any]` entries).
Constructors cover the closed set of value shapes the engine itself
writes: strings, numbers, lists of id strings, nested string dicts
(entity `properties`), and Python `None`. -/
inductive MVal where
  | s (v : String)
  | n (v : ℚ)
  | slist (v : List String)
  | dict (v : List (String × String))
  | none
  deriving DecidableEq

/-- Metadata: an insertion-ordered string-keyed map, as a Python `dict`. -/
abbrev Metadata := List (String × MVal)

/-- `d.get(k)` on a Python dict: first (and only) binding of `k`. -/
def mget (m : Metadata) (k : String) : Option MVal :=
  (m.find? (fun p => p.1 = k)).map (fun p => p.2)

/-- `d[k] = v` on a Python dict: replace the binding in place if the key
exists, otherwise append it (insertion order preserved). -/
def mset (m : Metadata) (k : String) (v : MVal) : Metadata :=
  if (m.find? (fun p => p.1 = k)).isSome then
    m.map (fun p => if p.1 = k then (k, v) else p)
  else m ++ [(k, v)]

/-- `models/chat.py` `Source`: one unit of retrieved knowledge.
`type` is the `Literal["graph", "vector"]` provenance tag. -/
structure Source where
  type : String
  content : String
  relevance_score : ℚ
  metadata : Metadata
  deriving DecidableEq

/-- `clients/neo4j_client.py` `GraphEntity`.  `properties` values are
kept as the strings `str(v)` the retrieval service derives from them. -/
structure GraphEntity where
  id : String
  name : String
  type : String
  description : Option String
  properties : List (String × String)
  deriving DecidableEq

/-- `clients/neo4j_client.py` `GraphRelationship`. -/
structure GraphRelationship where
  id : String
  type : String
  source_id : String
  target_id : String
  deriving DecidableEq

/-- `clients/neo4j_client.py` `GraphQueryResult` (the `raw_results` and
`query_time` fields are never read by the retrieval service and are
omitted). -/
structure GraphQueryResult where
  entities : List GraphEntity
  relationships : List GraphRelationship
  deriving DecidableEq

/-- One ChromaDB similarity-search hit: the dict
`{document, metadata, distance, id, similarity_score}` produced by
`chromadb_client.similarity_search` (all keys are always set by the
client, so the `.get(..., default)` accesses in the service are modelled
as plain field reads). -/
structure VectorHit where
  id : String
  document : String
  metadata : Metadata
  distance : ℚ
  similarity_score : ℚ
  deriving DecidableEq

/-- The configuration the service reads in `__init__` (defaults from the
source).  Weights, thresholds and the TTL are exact rationals. -/
structure Config where
  max_graph_results : Nat := 10
  max_vector_results : Nat := 10
  similarity_threshold : ℚ := 0.7
  graph_weight : ℚ := 0.6
  vector_weight : ℚ := 0.4
  cache_enabled : Bool := true
  cache_ttl : ℚ := 300
  max_cache_size : Nat := 1000
  deriving DecidableEq

/-- Python `s.lower()` (ASCII case folding; queries and contents in the
claims are ASCII). -/
def pyLower (s : String) : String := ⟨s.data.map Char.toLower⟩

/-- Python `s.strip()`: drop leading and trailing whitespace. -/
def pyStrip (s : String) : String :=
  ⟨((s.data.dropWhile Char.isWhitespace).reverse.dropWhile Char.isWhitespace).reverse⟩

def wordsAux : List Char → List Char → List String
  | [], acc => if acc.isEmpty then [] else [⟨acc.reverse⟩]
  | c :: rest, acc =>
    if c.isWhitespace then
      (if acc.isEmpty then wordsAux rest [] else (⟨acc.reverse⟩ : String) :: wordsAux rest [])
    else wordsAux rest (c :: acc)

/-- Python `s.split()` (no separator): split on whitespace runs,
dropping empty fragments. -/
def pyWords (s : String) : List String := wordsAux s.data []

/-- `set(query.lower().split())`: the keyword set of a query string. -/
def keywordSet (s : String) : Finset String :=
  (pyWords (pyLower s)).toFinset

/-- Python `min(a, b)`: the first argument on ties. -/
def pyMin (a b : ℚ) : ℚ := if a ≤ b then a else b

/-! ## Ranker (`_rank_sources` and the three boost terms) -/

/-- `_calculate_content_boost`: keyword-density plus length sweet-spot,
clamped to at most 0.2. -/
def calculate_content_boost (content : String) (query_keywords : Finset String) : ℚ :=
  let content_words := keywordSet content
  let keyword_matches := (query_keywords ∩ content_words).card
  let boost : ℚ :=
    if keyword_matches > 0 then
      0.1 * ((keyword_matches : ℚ) / (query_keywords.card : ℚ))
    else 0
  let content_length := content.length
  let boost :=
    if 100 ≤ content_length ∧ content_length ≤ 500 then boost + 0.05
    else if 50 ≤ content_length ∧ content_length ≤ 1000 then boost + 0.02
    else boost
  pyMin boost 0.2

/-- `_calculate_type_boost`: fixed preference graph over vector. -/
def calculate_type_boost (source_type : String) : ℚ :=
  if source_type = "graph" then 0.05
  else if source_type = "vector" then 0.03
  else 0

/-- Python truthiness of an optional metadata value (`metadata.get(k)`
used in a boolean context): absent or `None` or an empty string / list /
dict or zero is falsy. -/
def mtruthy : Option MVal → Bool
  | Option.none => false
  | some MVal.none => false
  | some (MVal.s v) => v ≠ ""
  | some (MVal.n v) => v ≠ 0
  | some (MVal.slist v) => v ≠ []
  | some (MVal.dict v) => v ≠ []

/-- `_calculate_metadata_boost`: rewards rich metadata, clamped to 0.1. -/
def calculate_metadata_boost (metadata : Metadata) : ℚ :=
  let boost : ℚ := 0
  let boost := if metadata.length > 3 then boost + 0.02 else boost
  let boost :=
    if mtruthy (mget metadata "entity_type") ∨ mtruthy (mget metadata "document_type") then
      boost + 0.02
    else boost
  let boost :=
    if mtruthy (mget metadata "related_entities") ∨ mtruthy (mget metadata "parent_document_id") then
      boost + 0.02
    else boost
  let boost :=
    if mget metadata "source_type" = some (MVal.s "neo4j") ∨
        mget metadata "source_type" = some (MVal.s "chromadb") then
      boost + 0.02
    else boost
  pyMin boost 0.1

/-- The per-source rescoring step of `_rank_sources`: the in-place
mutation `source.relevance_score = min(final_score, 1.0)`. -/
def score_source (cfg : Config) (query_keywords : Finset String) (s : Source) : Source :=
  let final_score := s.relevance_score + calculate_content_boost s.content query_keywords +
    calculate_type_boost s.type + calculate_metadata_boost s.metadata
  { s with relevance_score := pyMin final_score 1 }

/-- Stable descending insertion: place `x` before the first element
whose score does not exceed `x`'s, so earlier-input sources precede
later equal-scored ones. -/
def orderedInsertDesc (x : Source) : List Source → List Source
  | [] => [x]
  | y :: ys =>
    if y.relevance_score ≤ x.relevance_score then x :: y :: ys
    else y :: orderedInsertDesc x ys

/-- Stable sort, descending by `relevance_score`: the denotation of
Python's stable `sorted(sources, key=lambda x: x.relevance_score,
reverse=True)` (a stable sort is determined by its comparator; see the
sortedness and stability theorems below). -/
def pySortDesc : List Source → List Source
  | [] => []
  | x :: xs => orderedInsertDesc x (pySortDesc xs)

/-- `_rank_sources`: rescore every source in place, then stably sort
descending by `relevance_score`. -/
def rank_sources (cfg : Config) (sources : List Source) (query : String) : List Source :=
  let query_keywords := keywordSet query
  pySortDesc (sources.map (score_source cfg query_keywords))

/-! ## Deduplicator (`_deduplicate_sources`)

The source hashes `source.content.lower().strip()` with MD5 and compares
hashes; since MD5 is a function, hash equality coincides with equality of
the normalized contents (up to MD5 collisions, which are immaterial to
the algorithm's logic), so the embedding compares normalized contents
directly. -/

/-- `source.content.lower().strip()` -/
def normalized_content (s : Source) : String := pyStrip (pyLower s.content)

/-- The duplicate branch of `_deduplicate_sources`: locate the first
kept source with the same normalized content (`next(...)` over
`enumerate(deduplicated)`) and replace it in place iff the newcomer has
a strictly higher `relevance_score`. -/
def replaceIfHigher (h : String) (source : Source) : List Source → List Source
  | [] => []
  | s :: rest =>
    if normalized_content s = h then
      (if source.relevance_score > s.relevance_score then source else s) :: rest
    else s :: replaceIfHigher h source rest

/-- One iteration of the `for source in sources` loop, acting on the
state `(seen_content, deduplicated)`. -/
def dedupStep : List String × List Source → Source → List String × List Source
  | (seen, ded), source =>
    let h := normalized_content source
    if h ∉ seen then (h :: seen, ded ++ [source])
    else (seen, replaceIfHigher h source ded)

/-- `_deduplicate_sources` (the `if not sources: return sources` early
return coincides with folding over the empty list). -/
def deduplicate_sources (sources : List Source) : List Source :=
  (sources.foldl dedupStep ([], [])).2

/-- Left-to-right selection of the surviving source of one duplicate
group: a later candidate displaces the current survivor iff its score is
strictly higher — the selection the dedup loop performs per group. -/
def bestFrom : Option Source → List Source → Option Source
  | cur, [] => cur
  | Option.none, s :: rest => bestFrom (some s) rest
  | some k, s :: rest =>
    bestFrom (some (if s.relevance_score > k.relevance_score then s else k)) rest

def optList : Option Source → List Source
  | Option.none => []
  | some s => [s]

/-! ## Cache key (`_generate_cache_key`)

The source serializes `str(sorted(cache_data.items()))` and MD5-hexes
it.  MD5 is a function of the string, so equal strings give equal
fingerprints, and distinct strings give distinct fingerprints absent an
MD5 collision (immaterial to the key-derivation logic); the embedding
therefore works with the pre-hash string.  Python `repr` is injective on
each of the value types that occur (`int`, `bool`, `float`, `str`); the
embedding renders each typed value injectively, with the exact-rational
stand-in for the float threshold rendered as numerator/denominator. -/

/-- A dynamically typed retrieval-option value. -/
inductive OptVal where
  | int (i : Int)
  | bool (b : Bool)
  | rat (q : ℚ)
  | str (v : String)
  deriving DecidableEq

/-- The options dict passed to `_generate_cache_key`, as an
insertion-ordered association list. -/
abbrev Options := List (String × OptVal)

/-- `options.get(k, d)`. -/
def oget (opts : Options) (k : String) (d : OptVal) : OptVal :=
  match opts.find? (fun p => p.1 = k) with
  | some p => p.2
  | Option.none => d

def digitChar : Nat → Char
  | 0 => '0' | 1 => '1' | 2 => '2' | 3 => '3' | 4 => '4'
  | 5 => '5' | 6 => '6' | 7 => '7' | 8 => '8' | 9 => '9'
  | _ => '!'

/-- Little-endian decimal digits, fuel-structured so the kernel can
evaluate it. -/
def natDigitsAux : Nat → Nat → List Nat
  | 0, _ => []
  | fuel + 1, n => if n = 0 then [] else (n % 10) :: natDigitsAux fuel (n / 10)

def natDigits (n : Nat) : List Nat := natDigitsAux n n

/-- Decimal rendering of a natural number, as Python `repr`. -/
def reprNat (n : Nat) : String :=
  if n = 0 then "0" else ⟨((natDigits n).map digitChar).reverse⟩

/-- Decimal rendering of an integer, as Python `repr`. -/
def reprInt : Int → String
  | Int.ofNat n => reprNat n
  | Int.negSucc n => "-" ++ reprNat (n + 1)

/-- Injective rendering of the exact rational standing in for a Python
float (Python's float `repr` is injective on floats). -/
def reprRat (q : ℚ) : String := reprInt q.num ++ "/" ++ reprNat q.den

/-- The ASCII apostrophe Python `repr` wraps strings in. -/
def pyQuote : String := ⟨[Char.ofNat 39]⟩

/-- Python `repr` of one option value. -/
def reprVal : OptVal → String
  | OptVal.int i => reprInt i
  | OptVal.bool b => if b then "True" else "False"
  | OptVal.rat q => reprRat q
  | OptVal.str v => pyQuote ++ v ++ pyQuote

def undigits : List Nat → Nat
  | [] => 0
  | d :: ds => d + 10 * undigits ds

def sep0 : String := "[(" ++ pyQuote ++ "include_graph" ++ pyQuote ++ ", "

def sep1 : String := "), (" ++ pyQuote ++ "include_vector" ++ pyQuote ++ ", "

def sep2 : String := "), (" ++ pyQuote ++ "max_sources" ++ pyQuote ++ ", "

def sep3 : String := "), (" ++ pyQuote ++ "query" ++ pyQuote ++ ", "

def sep4 : String := "), (" ++ pyQuote ++ "similarity_threshold" ++ pyQuote ++ ", "

def sep5 : String := ")]"

/-- `_generate_cache_key`: the pre-hash string
`str(sorted(cache_data.items()))` — the five fixed keys sort
alphabetically to include_graph, include_vector, max_sources, query,
similarity_threshold; the query is normalized with
`query.lower().strip()`; extra option keys are ignored.  (The source
then MD5-hexes this string; see the section comment.) -/
def generate_cache_key (cfg : Config) (query : String) (options : Options) : String :=
  sep0 ++ reprVal (oget options "include_graph" (OptVal.bool true)) ++
  sep1 ++ reprVal (oget options "include_vector" (OptVal.bool true)) ++
  sep2 ++ reprVal (oget options "max_sources" (OptVal.int 5)) ++
  sep3 ++ reprVal (OptVal.str (pyStrip (pyLower query))) ++
  sep4 ++ reprVal (oget options "similarity_threshold" (OptVal.rat cfg.similarity_threshold)) ++
  sep5

/-! ## Result converters (`_convert_graph_to_sources`,
`_convert_vector_to_sources`, `_calculate_graph_relevance`) -/

/-- Python `sep.join(parts)`. -/
def pyJoin (sep : String) : List String → String
  | [] => ""
  | [s] => s
  | s :: t :: rest => s ++ sep ++ pyJoin sep (t :: rest)

/-- `_calculate_graph_relevance`: keyword overlap of the query with the
entity name (weight 0.5), description (0.3) and property values (0.2),
clamped to 1. -/
def calculate_graph_relevance (entity : GraphEntity) (query_keywords : Finset String) : ℚ :=
  let score : ℚ := 0
  let entity_name_words := keywordSet entity.name
  let name_matches := (query_keywords ∩ entity_name_words).card
  let score := if name_matches > 0 then
      score + 0.5 * ((name_matches : ℚ) / (query_keywords.card : ℚ)) else score
  let score := match entity.description with
    | some d =>
      if d ≠ "" then
        let desc_words := keywordSet d
        let desc_matches := (query_keywords ∩ desc_words).card
        if desc_matches > 0 then score + 0.3 * ((desc_matches : ℚ) / (query_keywords.card : ℚ))
        else score
      else score
    | Option.none => score
  let score := if entity.properties ≠ [] then
      let prop_text := pyJoin " " (entity.properties.map (fun p => pyLower p.2))
      let prop_words := (pyWords prop_text).toFinset
      let prop_matches := (query_keywords ∩ prop_words).card
      if prop_matches > 0 then score + 0.2 * ((prop_matches : ℚ) / (query_keywords.card : ℚ))
      else score
    else score
  pyMin score 1

/-- The related-entity ids of one entity: for each relationship touching
it, the opposite endpoint. -/
def relatedEntities (g : GraphQueryResult) (e : GraphEntity) : List String :=
  (g.relationships.filter (fun r => decide (r.source_id = e.id ∨ r.target_id = e.id))).map
    (fun r => if r.source_id = e.id then r.target_id else r.source_id)

/-- The `Source` built for one graph entity that passed the relevance
gate. -/
def mkGraphSource (cfg : Config) (g : GraphQueryResult) (query_keywords : Finset String)
    (e : GraphEntity) : Source :=
  let relevance_score := calculate_graph_relevance e query_keywords
  let related_entities := relatedEntities g e
  let content_parts := ["Entity: " ++ e.name]
  let content_parts := match e.description with
    | some d => if d ≠ "" then content_parts ++ ["Description: " ++ d] else content_parts
    | Option.none => content_parts
  let related_names := (related_entities.take 3).filterMap
    (fun rid => (g.entities.find? (fun e2 => e2.id = rid)).map (fun e2 => e2.name))
  let content_parts :=
    if related_entities ≠ [] ∧ related_names ≠ [] then
      content_parts ++ ["Related to: " ++ pyJoin ", " related_names]
    else content_parts
  { type := "graph"
    content := pyJoin ". " content_parts
    relevance_score := relevance_score * cfg.graph_weight
    metadata := [("entity_id", MVal.s e.id), ("entity_type", MVal.s e.type),
      ("entity_name", MVal.s e.name), ("related_entities", MVal.slist (related_entities.take 5)),
      ("source_type", MVal.s "neo4j"), ("properties", MVal.dict e.properties)] }

/-- `_convert_graph_to_sources`: emit a source per entity whose
relevance strictly exceeds the 0.1 gate, in entity order. -/
def convert_graph_to_sources (cfg : Config) (g : GraphQueryResult) (query : String) :
    List Source :=
  let query_keywords := keywordSet query
  g.entities.filterMap (fun e =>
    if calculate_graph_relevance e query_keywords > 0.1 then
      some (mkGraphSource cfg g query_keywords e)
    else Option.none)

/-- `_convert_vector_to_sources`. -/
def convert_vector_to_sources (cfg : Config) (vector_results : List VectorHit) : List Source :=
  vector_results.map (fun r =>
    { type := "vector"
      content := r.document
      relevance_score := r.similarity_score * cfg.vector_weight
      metadata := mset (mset (mset (mset r.metadata
        "document_id" (MVal.s r.id))
        "similarity_score" (MVal.n r.similarity_score))
        "distance" (MVal.n r.distance))
        "source_type" (MVal.s "chromadb") })

/-! ## Context aggregator (`_aggregate_context`) -/

/-- The string held by a metadata value (the pipeline only ever reads
`entity_name` / `document_id` keys it set itself as strings). -/
def mval_str : Option MVal → String
  | some (MVal.s v) => v
  | _ => ""

def listStartsWith : List Char → List Char → Bool
  | _, [] => true
  | [], _ :: _ => false
  | c :: cs, d :: ds => decide (c = d) && listStartsWith cs ds

def containsSub : List Char → List Char → Bool
  | [], pat => pat.isEmpty
  | c :: rest, pat => listStartsWith (c :: rest) pat || containsSub rest pat

/-- Python `needle in haystack` on strings. -/
def pyIn (needle haystack : String) : Bool := containsSub haystack.data needle.data

/-- `_aggregate_context`: cross-link graph sources to vector sources
whose content contains the entity name, then stamp every source with a
retrieval timestamp and method marker.  In-place metadata mutation
becomes a pure two-pass map. -/
def aggregate_context (now : ℚ) (sources : List Source) : List Source :=
  let vector_sources := sources.filter (fun s => decide (s.type = "vector"))
  let enrich := fun (s : Source) =>
    if s.type = "graph" then
      let entity_name := pyLower (mval_str (mget s.metadata "entity_name"))
      let related_vector_sources := (vector_sources.filter
          (fun vs => decide (entity_name ≠ "") && pyIn entity_name (pyLower vs.content))).map
        (fun vs => mval_str (mget vs.metadata "document_id"))
      if related_vector_sources ≠ [] then
        let md := mset s.metadata "related_documents" (MVal.slist (related_vector_sources.take 3))
        { s with metadata := md }
      else s
    else s
  (sources.map enrich).map (fun s =>
    let md := mset (mset s.metadata "retrieval_timestamp" (MVal.n now)) "retrieval_method"
      (MVal.s "hybrid")
    { s with metadata := md })

/-! ## Orchestration (`retrieve_knowledge`) and cache operations -/

/-- A dynamically typed value held by the `graph_results` /
`vector_results` slots of the result-processing loop. -/
inductive PyObj where
  | pynone
  | graphRes (r : GraphQueryResult)
  | vecList (l : List VectorHit)
  deriving DecidableEq

/-- The graph backend behind `neo4j_client` as seen by one request: its
health-check outcome and the `query_knowledge` response.  A backend call
that raises is caught inside `_retrieve_from_graph` and becomes `None`
exactly like a failing health check, so failure is folded into
`healthy = false`. -/
structure GraphBackend where
  healthy : Bool
  result : GraphQueryResult
  deriving DecidableEq

/-- The vector backend behind `chromadb_client`: health and the
`similarity_search` response (failures fold into `healthy = false` as
above, yielding `[]`). -/
structure VectorBackend where
  healthy : Bool
  hits : List VectorHit
  deriving DecidableEq

/-- Which backend clients are configured (`None` clients are skipped at
task-assembly time). -/
structure Backends where
  neo4j : Option GraphBackend
  chromadb : Option VectorBackend
  deriving DecidableEq

/-- `_retrieve_from_graph`. -/
def retrieve_from_graph (b : GraphBackend) : PyObj :=
  if b.healthy then PyObj.graphRes b.result else PyObj.pynone

/-- `_retrieve_from_vector`. -/
def retrieve_from_vector (b : VectorBackend) (similarity_threshold : ℚ) : List VectorHit :=
  if b.healthy then b.hits.filter (fun r => decide (r.similarity_score ≥ similarity_threshold))
  else []

/-- Task assembly plus `asyncio.gather`: the awaited results in issue
order (graph task first when issued, then the vector task). -/
def gatherResults (be : Backends) (ig iv : Bool) (threshold : ℚ) : List PyObj :=
  (if ig then
    match be.neo4j with
    | some g => [retrieve_from_graph g]
    | Option.none => []
   else []) ++
  (if iv then
    match be.chromadb with
    | some v => [PyObj.vecList (retrieve_from_vector v threshold)]
    | Option.none => []
   else [])

/-- The result-processing loop `for i, result in enumerate(results)`:
`elif include_graph and i == 0` assigns the graph slot, `elif
include_vector` the vector slot.  (The helpers catch all their
exceptions, so the `isinstance(result, Exception)` arm never fires.)
The attribution keys on the index and the `include_*` flags alone, not
on which tasks were actually issued. -/
def processLoop (ig iv : Bool) : List PyObj → Nat → PyObj × PyObj → PyObj × PyObj
  | [], _, slots => slots
  | r :: rest, i, (g, v) =>
    if ig ∧ i = 0 then processLoop ig iv rest (i + 1) (r, v)
    else if iv then processLoop ig iv rest (i + 1) (g, r)
    else processLoop ig iv rest (i + 1) (g, v)

/-- Slot state after the loop, from the initial
`graph_results = None; vector_results = []`. -/
def processResults (ig iv : Bool) (results : List PyObj) : PyObj × PyObj :=
  processLoop ig iv results 0 (PyObj.pynone, PyObj.vecList [])

/-- Python truthiness of a slot value (`if graph_results:`): `None` is
falsy, a `GraphQueryResult` instance truthy, a list truthy iff
non-empty. -/
def pytruthy : PyObj → Bool
  | PyObj.pynone => false
  | PyObj.graphRes _ => true
  | PyObj.vecList l => decide (l ≠ [])

/-- `_merge_and_rank_results` over the dynamically typed slots: a
non-`GraphQueryResult` truthy value in the graph slot raises
`AttributeError` at the `.entities` access, and a truthy non-list in the
vector slot would fail to iterate. -/
def merge_and_rank_results (cfg : Config) (graph_results vector_results : PyObj)
    (query : String) (max_sources : Nat) (now : ℚ) : Except String (List Source) := do
  let graph_sources ←
    if pytruthy graph_results then
      match graph_results with
      | PyObj.graphRes r => Except.ok (convert_graph_to_sources cfg r query)
      | _ => Except.error "AttributeError: object has no attribute entities"
    else Except.ok []
  let vector_sources ←
    if pytruthy vector_results then
      match vector_results with
      | PyObj.vecList l => Except.ok (convert_vector_to_sources cfg l)
      | _ => Except.error "TypeError: object is not iterable"
    else Except.ok []
  let sources := deduplicate_sources (graph_sources ++ vector_sources)
  let ranked_sources := rank_sources cfg sources query
  Except.ok (aggregate_context now (ranked_sources.take max_sources))

structure CacheEntry where
  sources : List Source
  timestamp : ℚ
  access_count : Nat
  deriving DecidableEq

/-- The in-memory cache `self._cache`, as an insertion-ordered dict. -/
abbrev Cache := List (String × CacheEntry)

def clookup (cache : Cache) (key : String) : Option CacheEntry :=
  (cache.find? (fun p => p.1 = key)).map (fun p => p.2)

def cset (cache : Cache) (key : String) (e : CacheEntry) : Cache :=
  if (cache.find? (fun p => p.1 = key)).isSome then
    cache.map (fun p => if p.1 = key then (key, e) else p)
  else cache ++ [(key, e)]

def cerase (cache : Cache) (key : String) : Cache :=
  cache.filter (fun p => decide (p.1 ≠ key))

/-- `CacheEntry.is_expired`. -/
def expired (e : CacheEntry) (now ttl : ℚ) : Bool := decide (now - e.timestamp > ttl)

/-- `_get_from_cache`: miss on disabled cache, absent key, or expiry
(the expired entry is deleted); a hit bumps `access_count` and returns
the stored list. -/
def get_from_cache (cfg : Config) (cache : Cache) (key : String) (now : ℚ) :
    Option (List Source) × Cache :=
  if ¬ cfg.cache_enabled then (Option.none, cache)
  else match clookup cache key with
    | Option.none => (Option.none, cache)
    | some entry =>
      if expired entry now cfg.cache_ttl then (Option.none, cerase cache key)
      else (some entry.sources,
        cset cache key { entry with access_count := entry.access_count + 1 })

/-- Stable ascending insertion by entry timestamp. -/
def orderedInsertTs (x : String × CacheEntry) : Cache → Cache
  | [] => [x]
  | y :: ys =>
    if x.2.timestamp ≤ y.2.timestamp then x :: y :: ys else y :: orderedInsertTs x ys

/-- `sorted(self._cache.items(), key=lambda x: x[1].timestamp)`: stable
sort of the cache items, ascending by timestamp (dict order on ties). -/
def pySortTs : Cache → Cache
  | [] => []
  | x :: xs => orderedInsertTs x (pySortTs xs)

/-- `_store_in_cache`: when at capacity, first evict the oldest
`max(1, len // 10)` entries by timestamp (stable sort, ties in
insertion order), then insert/overwrite. -/
def store_in_cache (cfg : Config) (cache : Cache) (key : String) (sources : List Source)
    (now : ℚ) : Cache :=
  if ¬ cfg.cache_enabled then cache
  else
    let cache1 :=
      if cache.length ≥ cfg.max_cache_size then
        let sorted_entries := pySortTs cache
        let entries_to_remove := max 1 (sorted_entries.length / 10)
        (sorted_entries.take entries_to_remove).foldl (fun c p => cerase c p.1) cache
      else cache
    cset cache1 key { sources := sources, timestamp := now, access_count := 0 }

/-- The dataclass `RetrievalResult` (the wall-clock `query_time` field
is not modelled; the slots keep their dynamic type). -/
structure RetrievalResult where
  sources : List Source
  graph_results : PyObj
  vector_results : PyObj
  cache_hit : Bool
  deriving DecidableEq

/-- The cache-miss path of `retrieve_knowledge`: assemble and await the
backend tasks, process the results into the two slots, merge and rank. -/
def full_retrieval (cfg : Config) (be : Backends) (now : ℚ) (query : String)
    (max_sources : Nat) (ig iv : Bool) (threshold : ℚ) :
    Except String (List Source × PyObj × PyObj) :=
  let results := gatherResults be ig iv threshold
  let slots := processResults ig iv results
  (merge_and_rank_results cfg slots.1 slots.2 query max_sources now).map
    (fun ms => (ms, slots.1, slots.2))

/-- `retrieve_knowledge`: cache lookup keyed by the query fingerprint
(an empty cached list is falsy, hence treated as a miss); on miss, full
retrieval, cache store, and a `cache_hit = false` result.  `now` stands
for `time.time()` during this call. -/
def retrieve_knowledge (cfg : Config) (be : Backends) (cache : Cache) (now : ℚ)
    (query : String) (max_sources : Nat) (include_graph include_vector : Bool)
    (similarity_threshold : Option ℚ) : Except String (RetrievalResult × Cache) :=
  let threshold := similarity_threshold.getD cfg.similarity_threshold
  let options : Options := [("max_sources", OptVal.int max_sources),
    ("include_graph", OptVal.bool include_graph),
    ("include_vector", OptVal.bool include_vector),
    ("similarity_threshold", OptVal.rat threshold)]
  let cache_key := generate_cache_key cfg query options
  let looked := get_from_cache cfg cache cache_key now
  let missPath : Cache → Except String (RetrievalResult × Cache) := fun cache1 =>
    match full_retrieval cfg be now query max_sources include_graph include_vector threshold with
    | Except.error e => Except.error e
    | Except.ok (merged, g, v) =>
      let res : RetrievalResult :=
        { sources := merged, graph_results := g, vector_results := v, cache_hit := false }
      Except.ok (res, store_in_cache cfg cache1 cache_key merged now)
  match looked.1 with
  | some cs =>
    if cs ≠ [] then
      let res : RetrievalResult :=
        { sources := cs.take max_sources, graph_results := PyObj.pynone,
          vector_results := PyObj.pynone, cache_hit := true }
      Except.ok (res, looked.2)
    else missPath looked.2
  | Option.none => missPath looked.2

/-! ## Cache reference semantics (`_get_from_cache` hit path, claim C4)

Python returns objects by reference.  To examine what a cache hit
actually hands to the caller we refine the `Source` lists of the cache
to lists of heap addresses: the heap maps an address to the `Source`
object currently stored there, and an assignment to a field of a shared
object is a heap write visible through every alias. -/

/-- A Python object identity (`id(obj)`). -/
abbrev Addr := Nat

/-- The object heap: which `Source` currently lives at each address. -/
abbrev Heap := Addr → Source

/-- A cache entry whose `sources` field holds references, as the real
`CacheEntry` dataclass does. -/
structure CacheEntryRef where
  sources : List Addr
  timestamp : ℚ
  access_count : Nat

/-- `_get_from_cache` on a hit executes `return entry.sources`: the very
list object stored in the entry is handed back, with no copy. -/
def get_from_cache_ref (entry : CacheEntryRef) : List Addr :=
  entry.sources

/-- The hit branch of `retrieve_knowledge` returns
`cached_sources[:max_sources]`: a slice, i.e. a fresh list holding the
same object references. -/
def hitSlice (cached : List Addr) (max_sources : Nat) : List Addr :=
  cached.take max_sources

/-- The `Source` values an entry denotes under a heap. -/
def cachedSources (h : Heap) (entry : CacheEntryRef) : List Source :=
  entry.sources.map h

/-- A field assignment on the object at address `a` (e.g.
`src.relevance_score = 0.0` performed by the caller on a returned
source). -/
def writeHeap (h : Heap) (a : Addr) (s : Source) : Heap :=
  fun x => if x = a then s else h x

/-! ## Theorems -/

theorem pyMin_eq_min (a b : ℚ) : pyMin a b = min a b := (min_def a b).symm

theorem orderedInsertDesc_perm (x : Source) :
    ∀ l : List Source, (orderedInsertDesc x l).Perm (x :: l) := by
  intro l
  induction l with
  | nil => exact List.Perm.refl _
  | cons y ys ih =>
    unfold orderedInsertDesc
    split
    · exact List.Perm.refl _
    · exact (ih.cons y).trans (List.Perm.swap x y ys)

theorem pySortDesc_perm : ∀ l : List Source, (pySortDesc l).Perm l := by
  intro l
  induction l with
  | nil => exact List.Perm.refl _
  | cons x xs ih =>
    unfold pySortDesc
    exact (orderedInsertDesc_perm x (pySortDesc xs)).trans (ih.cons x)

theorem mem_orderedInsertDesc (x z : Source) (l : List Source)
    (hz : z ∈ orderedInsertDesc x l) : z = x ∨ z ∈ l :=
  List.mem_cons.mp ((orderedInsertDesc_perm x l).mem_iff.mp hz)

theorem orderedInsertDesc_pairwise (x : Source) :
    ∀ l : List Source,
      l.Pairwise (fun a b => b.relevance_score ≤ a.relevance_score) →
      (orderedInsertDesc x l).Pairwise (fun a b => b.relevance_score ≤ a.relevance_score) := by
  intro l
  induction l with
  | nil => intro _; simp [orderedInsertDesc]
  | cons y ys ih =>
    intro hp
    rw [List.pairwise_cons] at hp
    unfold orderedInsertDesc
    split
    · rename_i hyx
      rw [List.pairwise_cons]
      refine ⟨?_, List.pairwise_cons.mpr hp⟩
      intro b hb
      rcases List.mem_cons.mp hb with rfl | hb2
      · exact hyx
      · exact le_trans (hp.1 b hb2) hyx
    · rename_i hyx
      rw [List.pairwise_cons]
      constructor
      · intro b hb
        rcases mem_orderedInsertDesc x b ys hb with rfl | hb2
        · exact le_of_not_le hyx
        · exact hp.1 b hb2
      · exact ih hp.2

theorem pySortDesc_pairwise :
    ∀ l : List Source,
      (pySortDesc l).Pairwise (fun a b => b.relevance_score ≤ a.relevance_score) := by
  intro l
  induction l with
  | nil => simp [pySortDesc]
  | cons x xs ih =>
    unfold pySortDesc
    exact orderedInsertDesc_pairwise x (pySortDesc xs) ih

theorem filter_orderedInsertDesc (c : ℚ) (x : Source) :
    ∀ l : List Source,
      l.Pairwise (fun a b => b.relevance_score ≤ a.relevance_score) →
      (orderedInsertDesc x l).filter (fun s => decide (s.relevance_score = c)) =
        if x.relevance_score = c then
          x :: l.filter (fun s => decide (s.relevance_score = c))
        else l.filter (fun s => decide (s.relevance_score = c)) := by
  intro l
  induction l with
  | nil =>
    intro _
    by_cases hxc : x.relevance_score = c
    · simp [orderedInsertDesc, List.filter, hxc]
    · simp [orderedInsertDesc, List.filter, hxc]
  | cons y ys ih =>
    intro hp
    rw [List.pairwise_cons] at hp
    unfold orderedInsertDesc
    split
    · rename_i hyx
      split
      · rename_i hxc
        rw [List.filter_cons_of_pos (by simp [hxc])]
      · rename_i hxc
        rw [List.filter_cons_of_neg (by simp [hxc])]
    · rename_i hyx
      have hxy : x.relevance_score < y.relevance_score := lt_of_not_le hyx
      by_cases hyc : y.relevance_score = c
      · have hxc : ¬ x.relevance_score = c := fun hc => absurd (hc ▸ hxy) (by
          rw [hyc]
          exact lt_irrefl c)
        rw [if_neg hxc, List.filter_cons_of_pos (by simp [hyc]),
          List.filter_cons_of_pos (by simp [hyc]), ih hp.2, if_neg hxc]
      · rw [List.filter_cons_of_neg (by simp [hyc]),
          List.filter_cons_of_neg (by simp [hyc]), ih hp.2]

theorem pySortDesc_stable (c : ℚ) :
    ∀ l : List Source,
      (pySortDesc l).filter (fun s => decide (s.relevance_score = c)) =
        l.filter (fun s => decide (s.relevance_score = c)) := by
  intro l
  induction l with
  | nil => rfl
  | cons x xs ih =>
    unfold pySortDesc
    rw [filter_orderedInsertDesc c x (pySortDesc xs) (pySortDesc_pairwise xs)]
    split
    · rename_i hxc
      rw [List.filter_cons_of_pos (by simp [hxc]), ih]
    · rename_i hxc
      rw [List.filter_cons_of_neg (by simp [hxc]), ih]

theorem calculate_content_boost_bounds (content : String) (kw : Finset String) :
    0 ≤ calculate_content_boost content kw ∧ calculate_content_boost content kw ≤ 0.2 := by
  unfold calculate_content_boost
  simp only [pyMin_eq_min]
  have h1 : (0 : ℚ) ≤ (if (kw ∩ keywordSet content).card > 0 then
      0.1 * (((kw ∩ keywordSet content).card : ℚ) / (kw.card : ℚ)) else 0) := by
    split
    · positivity
    · exact le_refl 0
  constructor
  · simp only [le_min_iff]
    refine ⟨?_, by norm_num⟩
    split
    · linarith
    · split
      · linarith
      · exact h1
  · exact min_le_right _ _

theorem calculate_type_boost_bounds (t : String) :
    0 ≤ calculate_type_boost t ∧ calculate_type_boost t ≤ 0.1 := by
  unfold calculate_type_boost
  split
  · norm_num
  · split
    · norm_num
    · norm_num

theorem calculate_metadata_boost_bounds (m : Metadata) :
    0 ≤ calculate_metadata_boost m ∧ calculate_metadata_boost m ≤ 0.1 := by
  unfold calculate_metadata_boost
  simp only [pyMin_eq_min]
  constructor
  · simp only [le_min_iff]
    refine ⟨?_, by norm_num⟩
    split <;> split <;> split <;> split <;> norm_num
  · exact min_le_right _ _

theorem score_source_bounds (cfg : Config) (kw : Finset String) (s : Source)
    (h0 : 0 ≤ s.relevance_score) :
    0 ≤ (score_source cfg kw s).relevance_score ∧ (score_source cfg kw s).relevance_score ≤ 1 := by
  have hc := calculate_content_boost_bounds s.content kw
  have ht := calculate_type_boost_bounds s.type
  have hm := calculate_metadata_boost_bounds s.metadata
  unfold score_source
  simp only [pyMin_eq_min]
  constructor
  · simp only [le_min_iff]
    constructor
    · linarith [hc.1, ht.1, hm.1]
    · norm_num
  · exact min_le_right _ _

/-- C5 -- For every list of input sources whose pre-ranking
`relevance_score` lies in [0,1], every source output by the Ranker has
`relevance_score` in [0,1]: each boost term is non-negative and bounded
(content at most 0.2, type at most 0.1, metadata at most 0.1), and the
summed final score is clamped to at most 1. -/
theorem claim_C5 (cfg : Config) (sources : List Source) (query : String) :
    (∀ content kw, 0 ≤ calculate_content_boost content kw ∧
        calculate_content_boost content kw ≤ 0.2) ∧
    (∀ t, 0 ≤ calculate_type_boost t ∧ calculate_type_boost t ≤ 0.1) ∧
    (∀ m, 0 ≤ calculate_metadata_boost m ∧ calculate_metadata_boost m ≤ 0.1) ∧
    ((∀ s ∈ sources, 0 ≤ s.relevance_score ∧ s.relevance_score ≤ 1) →
      ∀ t ∈ rank_sources cfg sources query,
        0 ≤ t.relevance_score ∧ t.relevance_score ≤ 1) := by
  refine ⟨calculate_content_boost_bounds, calculate_type_boost_bounds,
    calculate_metadata_boost_bounds, fun hin t ht => ?_⟩
  unfold rank_sources at ht
  have hmem : t ∈ (sources.map (score_source cfg (keywordSet query))) :=
    (pySortDesc_perm _).mem_iff.mp ht
  obtain ⟨s, hs, rfl⟩ := List.mem_map.mp hmem
  exact score_source_bounds cfg _ s (hin s hs).1

theorem claim_C5_witness :
    (∀ s ∈ [Source.mk "vector" "doc text" 0.5 []], 0 ≤ s.relevance_score ∧ s.relevance_score ≤ 1) ∧
    ∀ t ∈ rank_sources {} [Source.mk "vector" "doc text" 0.5 []] "doc query",
      0 ≤ t.relevance_score ∧ t.relevance_score ≤ 1 := by
  have h : ∀ s ∈ [Source.mk "vector" "doc text" 0.5 []],
      0 ≤ s.relevance_score ∧ s.relevance_score ≤ 1 := by
    intro s hs
    simp only [List.mem_singleton] at hs
    subst hs
    norm_num
  exact ⟨h, (claim_C5 {} [Source.mk "vector" "doc text" 0.5 []] "doc query").2.2.2 h⟩

/-- C6 -- The Ranker's output is sorted non-increasing by final
`relevance_score`, and the sort is stable: for every score value `c`,
the output sources carrying `c` appear in exactly the order in which the
corresponding (rescored) input sources appear, i.e. equal-score sources
retain their pre-sort relative order. -/
theorem claim_C6 (cfg : Config) (sources : List Source) (query : String) :
    (rank_sources cfg sources query).Pairwise
      (fun a b => b.relevance_score ≤ a.relevance_score) ∧
    ∀ c : ℚ,
      (rank_sources cfg sources query).filter (fun s => decide (s.relevance_score = c)) =
      (sources.map (score_source cfg (keywordSet query))).filter
        (fun s => decide (s.relevance_score = c)) := by
  constructor
  · exact pySortDesc_pairwise (sources.map (score_source cfg (keywordSet query)))
  · intro c
    exact pySortDesc_stable c (sources.map (score_source cfg (keywordSet query)))

theorem replaceIfHigher_map_norm (h : String) (src : Source) (hsrc : normalized_content src = h) :
    ∀ l : List Source, (replaceIfHigher h src l).map normalized_content = l.map normalized_content := by
  intro l
  induction l with
  | nil => rfl
  | cons s rest ih =>
    by_cases hs : normalized_content s = h
    · simp only [replaceIfHigher, if_pos hs, List.map_cons]
      split <;> simp [hsrc, hs]
    · simp only [replaceIfHigher, if_neg hs, List.map_cons, ih]

theorem filter_norm_eq_nil (c : String) (l : List Source)
    (hnot : c ∉ l.map normalized_content) :
    l.filter (fun s => decide (normalized_content s = c)) = [] := by
  rw [List.filter_eq_nil_iff]
  intro a ha
  simp only [decide_eq_true_eq]
  intro hc
  exact hnot (List.mem_map.mpr ⟨a, ha, hc⟩)

theorem filter_src_cons_pos (c : String) (s : Source) (l : List Source)
    (hs : normalized_content s = c) :
    (s :: l).filter (fun t => decide (normalized_content t = c)) =
      s :: l.filter (fun t => decide (normalized_content t = c)) := by
  rw [List.filter_cons_of_pos]
  simp [hs]

theorem filter_src_cons_neg (c : String) (s : Source) (l : List Source)
    (hs : normalized_content s ≠ c) :
    (s :: l).filter (fun t => decide (normalized_content t = c)) =
      l.filter (fun t => decide (normalized_content t = c)) := by
  rw [List.filter_cons_of_neg]
  simp [hs]

theorem replaceIfHigher_filter_ne (h c : String) (src : Source) (hsrc : normalized_content src = h)
    (hne : c ≠ h) :
    ∀ l : List Source,
      (replaceIfHigher h src l).filter (fun s => decide (normalized_content s = c)) =
        l.filter (fun s => decide (normalized_content s = c)) := by
  intro l
  have hknew : ∀ t : Source, normalized_content t = h → normalized_content t ≠ c := by
    intro t ht
    rw [ht]
    exact fun hh => hne hh.symm
  induction l with
  | nil => rfl
  | cons s rest ih =>
    by_cases hs : normalized_content s = h
    · simp only [replaceIfHigher, if_pos hs]
      rw [filter_src_cons_neg c s rest (hknew s hs)]
      split
      · rw [filter_src_cons_neg c src rest (hknew src hsrc)]
      · rw [filter_src_cons_neg c s rest (hknew s hs)]
    · simp only [replaceIfHigher, if_neg hs]
      by_cases hc : normalized_content s = c
      · rw [filter_src_cons_pos c s _ hc, filter_src_cons_pos c s _ hc, ih]
      · rw [filter_src_cons_neg c s _ hc, filter_src_cons_neg c s _ hc, ih]

theorem replaceIfHigher_filter_eq (h : String) (src : Source) (hsrc : normalized_content src = h) :
    ∀ l : List Source, (l.map normalized_content).Nodup →
      (replaceIfHigher h src l).filter (fun s => decide (normalized_content s = h)) =
        (match l.filter (fun s => decide (normalized_content s = h)) with
          | [] => []
          | d :: _ => [if src.relevance_score > d.relevance_score then src else d]) := by
  intro l
  induction l with
  | nil => intro _; rfl
  | cons s rest ih =>
    intro hnd
    rw [List.map_cons, List.nodup_cons] at hnd
    by_cases hs : normalized_content s = h
    · have hrest : rest.filter (fun t => decide (normalized_content t = h)) = [] :=
        filter_norm_eq_nil h rest (by rw [← hs]; exact hnd.1)
      have hrest2 : (replaceIfHigher h src (s :: rest)).filter
          (fun t => decide (normalized_content t = h)) =
          [if src.relevance_score > s.relevance_score then src else s] := by
        simp only [replaceIfHigher, if_pos hs]
        split
        · rw [filter_src_cons_pos h src rest hsrc, hrest]
        · rw [filter_src_cons_pos h s rest hs, hrest]
      rw [hrest2, filter_src_cons_pos h s rest hs, hrest]
    · simp only [replaceIfHigher, if_neg hs]
      rw [filter_src_cons_neg h s _ hs]
      have := ih hnd.2
      rw [← filter_src_cons_neg h s rest hs] at this
      rw [filter_src_cons_neg h s rest hs] at this ⊢
      exact this

theorem filter_norm_singleton (c : String) (l : List Source)
    (hnd : (l.map normalized_content).Nodup) :
    l.filter (fun s => decide (normalized_content s = c)) =
      optList (l.filter (fun s => decide (normalized_content s = c))).head? := by
  induction l with
  | nil => rfl
  | cons s rest ih =>
    rw [List.map_cons, List.nodup_cons] at hnd
    by_cases hs : normalized_content s = c
    · have hrest : rest.filter (fun t => decide (normalized_content t = c)) = [] :=
        filter_norm_eq_nil c rest (by rw [← hs]; exact hnd.1)
      rw [filter_src_cons_pos c s rest hs, hrest]
      rfl
    · rw [filter_src_cons_neg c s rest hs]
      exact ih hnd.2

theorem filter_norm_ne_nil (c : String) (l : List Source)
    (hc : c ∈ l.map normalized_content) :
    l.filter (fun s => decide (normalized_content s = c)) ≠ [] := by
  obtain ⟨x, hx, hxc⟩ := List.mem_map.mp hc
  intro hnil
  have hmem : x ∈ l.filter (fun s => decide (normalized_content s = c)) :=
    List.mem_filter.mpr ⟨hx, by simp [hxc]⟩
  rw [hnil] at hmem
  exact absurd hmem (List.not_mem_nil x)

/-- The central invariant of the dedup loop, generalized over the loop
state `(seen_content, deduplicated)`: the kept list stays free of
duplicate normalized contents, its contents are those of the state plus
the input, and per normalized content the kept source is the
left-to-right strictly-higher-score selection `bestFrom`. -/
theorem dedup_go_spec (l : List Source) :
    ∀ (seen : List String) (ded : List Source),
      (ded.map normalized_content).Nodup →
      (∀ c, c ∈ seen ↔ c ∈ ded.map normalized_content) →
      ((l.foldl dedupStep (seen, ded)).2.map normalized_content).Nodup ∧
      (∀ c, c ∈ (l.foldl dedupStep (seen, ded)).2.map normalized_content ↔
          (c ∈ ded.map normalized_content ∨ c ∈ l.map normalized_content)) ∧
      (∀ c, (l.foldl dedupStep (seen, ded)).2.filter
            (fun s => decide (normalized_content s = c)) =
          optList (bestFrom ((ded.filter (fun s => decide (normalized_content s = c))).head?)
            (l.filter (fun s => decide (normalized_content s = c))))) := by
  induction l with
  | nil =>
    intro seen ded hnd hiff
    refine ⟨hnd, fun c => by simp, fun c => ?_⟩
    simp only [List.foldl_nil, List.filter_nil, bestFrom]
    exact filter_norm_singleton c ded hnd
  | cons s l ih =>
    intro seen ded hnd hiff
    rw [List.foldl_cons]
    by_cases hseen : normalized_content s ∈ seen
    · have hstep : dedupStep (seen, ded) s =
          (seen, replaceIfHigher (normalized_content s) s ded) := by
        simp [dedupStep, hseen]
      rw [hstep]
      have hmapd := replaceIfHigher_map_norm (normalized_content s) s rfl ded
      have hnd' : ((replaceIfHigher (normalized_content s) s ded).map normalized_content).Nodup := by
        rw [hmapd]; exact hnd
      have hiff' : ∀ c, c ∈ seen ↔
          c ∈ (replaceIfHigher (normalized_content s) s ded).map normalized_content := by
        intro c; rw [hmapd]; exact hiff c
      obtain ⟨P1, P2, P3⟩ := ih seen _ hnd' hiff'
      refine ⟨P1, fun c => ?_, fun c => ?_⟩
      · rw [P2 c, hmapd]
        simp only [List.map_cons, List.mem_cons]
        constructor
        · rintro (hc | hc)
          · exact Or.inl hc
          · exact Or.inr (Or.inr hc)
        · rintro (hc | hc1 | hc2)
          · exact Or.inl hc
          · refine Or.inl ((hiff c).mp ?_)
            rw [hc1]; exact hseen
          · exact Or.inr hc2
      · rw [P3 c]
        by_cases hc : c = normalized_content s
        · subst hc
          have hmem : normalized_content s ∈ ded.map normalized_content := (hiff _).mp hseen
          have hne := filter_norm_ne_nil (normalized_content s) ded hmem
          have hsing := filter_norm_singleton (normalized_content s) ded hnd
          obtain ⟨d, hd⟩ : ∃ d, ded.filter
              (fun t => decide (normalized_content t = normalized_content s)) = [d] := by
            cases hF : ded.filter (fun t => decide (normalized_content t = normalized_content s)) with
            | nil => exact absurd hF hne
            | cons d rest =>
              rw [hF] at hsing
              exact ⟨d, hsing⟩
          have hrep := replaceIfHigher_filter_eq (normalized_content s) s rfl ded hnd
          rw [hd] at hrep
          rw [hrep, hd, filter_src_cons_pos (normalized_content s) s l rfl]
          simp only [List.head?, optList, bestFrom]
        · have hrep := replaceIfHigher_filter_ne (normalized_content s) c s rfl hc ded
          rw [hrep, filter_src_cons_neg c s l (fun hh => hc hh.symm)]
    · have hstep : dedupStep (seen, ded) s =
          (normalized_content s :: seen, ded ++ [s]) := by
        simp [dedupStep, hseen]
      rw [hstep]
      have hnotded : normalized_content s ∉ ded.map normalized_content :=
        fun hmem => hseen ((hiff _).mpr hmem)
      have hnd' : ((ded ++ [s]).map normalized_content).Nodup := by
        rw [List.map_append]
        rw [List.nodup_append]
        refine ⟨hnd, by simp, ?_⟩
        intro a ha
        simp only [List.map_cons, List.map_nil, List.mem_singleton]
        intro haeq
        rw [haeq] at ha
        exact hnotded ha
      have hiff' : ∀ c, c ∈ normalized_content s :: seen ↔
          c ∈ (ded ++ [s]).map normalized_content := by
        intro c
        rw [List.map_append]
        simp only [List.mem_cons, List.mem_append, List.map_cons, List.map_nil,
          List.mem_singleton, hiff c]
        tauto
      obtain ⟨P1, P2, P3⟩ := ih _ _ hnd' hiff'
      refine ⟨P1, fun c => ?_, fun c => ?_⟩
      · rw [P2 c, List.map_append]
        simp only [List.mem_append, List.map_cons, List.map_nil, List.mem_singleton,
          List.mem_cons]
        tauto
      · rw [P3 c]
        by_cases hc : c = normalized_content s
        · subst hc
          have hded : ded.filter (fun t => decide (normalized_content t = normalized_content s)) = [] :=
            filter_norm_eq_nil _ ded hnotded
          rw [List.filter_append, hded, filter_src_cons_pos (normalized_content s) s l rfl,
            filter_src_cons_pos (normalized_content s) s [] rfl]
          simp only [List.filter_nil, List.nil_append, List.head?, optList, bestFrom]
        · have hded : ([s].filter (fun t => decide (normalized_content t = c))) = [] := by
            rw [filter_src_cons_neg c s [] (fun hh => hc hh.symm)]
            rfl
          rw [List.filter_append, hded, List.append_nil,
            filter_src_cons_neg c s l (fun hh => hc hh.symm)]

theorem dedup_of_nodup (l : List Source) :
    ∀ seen ded, (∀ c ∈ l.map normalized_content, c ∉ seen) →
      (l.map normalized_content).Nodup →
      (l.foldl dedupStep (seen, ded)).2 = ded ++ l := by
  induction l with
  | nil => intro seen ded _ _; simp
  | cons s l ih =>
    intro seen ded hdis hnd
    rw [List.map_cons, List.nodup_cons] at hnd
    have hs : normalized_content s ∉ seen := hdis _ (by simp)
    rw [List.foldl_cons]
    have hstep : dedupStep (seen, ded) s = (normalized_content s :: seen, ded ++ [s]) := by
      simp [dedupStep, hs]
    rw [hstep, ih _ _ ?_ hnd.2]
    · simp
    · intro c hc
      simp only [List.mem_cons, not_or]
      constructor
      · intro hc1
        rw [hc1] at hc
        exact hnd.1 hc
      · exact hdis c (by simp [hc])

theorem bestFrom_isSome (G : List Source) : ∀ k, ∃ u, bestFrom (some k) G = some u := by
  induction G with
  | nil => intro k; exact ⟨k, rfl⟩
  | cons s rest ih => intro k; simpa [bestFrom] using ih _

theorem bestFrom_le (G : List Source) : ∀ k u, bestFrom (some k) G = some u →
    k.relevance_score ≤ u.relevance_score ∧
      ∀ v ∈ G, v.relevance_score ≤ u.relevance_score := by
  induction G with
  | nil =>
    intro k u h
    simp only [bestFrom, Option.some_inj] at h
    subst h
    exact ⟨le_refl _, by simp⟩
  | cons s rest ih =>
    intro k u h
    rw [show bestFrom (some k) (s :: rest) =
        bestFrom (some (if s.relevance_score > k.relevance_score then s else k)) rest from rfl] at h
    obtain ⟨h1, h2⟩ := ih _ u h
    constructor
    · refine le_trans ?_ h1
      split
      · rename_i hgt; exact le_of_lt hgt
      · exact le_refl _
    · intro v hv
      rcases List.mem_cons.mp hv with rfl | hv2
      · refine le_trans ?_ h1
        split
        · exact le_refl _
        · rename_i hgt; exact le_of_not_lt hgt
      · exact h2 v hv2

theorem bestFrom_mem (G : List Source) : ∀ k u, bestFrom (some k) G = some u →
    u = k ∨ u ∈ G := by
  induction G with
  | nil =>
    intro k u h
    simp only [bestFrom, Option.some_inj] at h
    exact Or.inl h.symm
  | cons s rest ih =>
    intro k u h
    rw [show bestFrom (some k) (s :: rest) =
        bestFrom (some (if s.relevance_score > k.relevance_score then s else k)) rest from rfl] at h
    rcases ih _ u h with hk | hr
    · rw [hk]
      split
      · exact Or.inr (by simp)
      · exact Or.inl rfl
    · exact Or.inr (List.mem_cons_of_mem s hr)

theorem bestFrom_first (G : List Source) : ∀ k u, bestFrom (some k) G = some u →
    (k :: G).find? (fun v => decide (u.relevance_score ≤ v.relevance_score)) = some u := by
  induction G with
  | nil =>
    intro k u h
    simp only [bestFrom, Option.some_inj] at h
    subst h
    rw [List.find?_cons_of_pos _ (by simp)]
  | cons s rest ih =>
    intro k u h
    have h' : bestFrom (some (if s.relevance_score > k.relevance_score then s else k)) rest =
        some u := h
    have hmax := bestFrom_le rest _ u h'
    by_cases hk : u.relevance_score ≤ k.relevance_score
    · have hk2 : (if s.relevance_score > k.relevance_score then s else k).relevance_score ≤
          k.relevance_score := le_trans hmax.1 hk
      have hkk : ¬ (s.relevance_score > k.relevance_score) := by
        intro hgt
        rw [if_pos hgt] at hk2
        exact absurd (lt_of_lt_of_le hgt hk2) (lt_irrefl _)
      rw [if_neg hkk] at h'
      have hfind := ih k u h'
      have hkeq : u = k := by
        rw [List.find?_cons_of_pos _ (by simp [hk])] at hfind
        exact (Option.some_inj.mp hfind).symm
      rw [List.find?_cons_of_pos _ (by simp [hk]), hkeq]
    · rw [List.find?_cons_of_neg _ (by simp [hk])]
      by_cases hsk : s.relevance_score > k.relevance_score
      · rw [if_pos hsk] at h'
        exact ih s u h'
      · rw [if_neg hsk] at h'
        have hfind := ih k u h'
        rw [List.find?_cons_of_neg _ (by simp [hk])] at hfind
        have hs2 : ¬ u.relevance_score ≤ s.relevance_score := by
          intro hle
          exact hk (le_trans hle (le_of_not_lt hsk))
        rw [List.find?_cons_of_neg _ (by simp [hs2])]
        exact hfind

theorem find_ge_eq_find_eq (L : List Source) (c : ℚ)
    (hle : ∀ v ∈ L, v.relevance_score ≤ c) :
    L.find? (fun v => decide (c ≤ v.relevance_score)) =
      L.find? (fun v => decide (v.relevance_score = c)) := by
  induction L with
  | nil => rfl
  | cons s rest ih =>
    have hs := hle s (by simp)
    by_cases h : s.relevance_score = c
    · rw [List.find?_cons_of_pos _ (by simp [h]), List.find?_cons_of_pos _ (by simp [h])]
    · have hnc : ¬ c ≤ s.relevance_score := fun hc2 => h (le_antisymm hs hc2)
      rw [List.find?_cons_of_neg _ (by simp [hnc]), List.find?_cons_of_neg _ (by simp [h])]
      exact ih (fun v hv => hle v (by simp [hv]))

/-- C7 -- The Deduplicator is idempotent (applying it to its own output
returns that output unchanged), and per normalized (trimmed, lowercased)
content exactly one source survives: one carrying the maximum
`relevance_score` of its duplicate group, the first-seen one on equal
scores (the surviving source is the first group member whose score
equals the survivor's, and no group member scores higher). -/
theorem claim_C7 :
    (∀ l : List Source, deduplicate_sources (deduplicate_sources l) = deduplicate_sources l) ∧
    (∀ (l : List Source) (c : String), c ∈ l.map normalized_content →
      ∃ u, (deduplicate_sources l).filter (fun s => decide (normalized_content s = c)) = [u] ∧
        u ∈ l ∧ normalized_content u = c ∧
        (∀ v ∈ l, normalized_content v = c → v.relevance_score ≤ u.relevance_score) ∧
        (l.filter (fun v => decide (normalized_content v = c))).find?
          (fun v => decide (v.relevance_score = u.relevance_score)) = some u) := by
  constructor
  · intro l
    have h0 := dedup_go_spec l [] [] (by simp) (by simp)
    have hnod : ((deduplicate_sources l).map normalized_content).Nodup := h0.1
    have h1 := dedup_of_nodup (deduplicate_sources l) [] [] (by intro c _; simp) hnod
    calc deduplicate_sources (deduplicate_sources l)
        = ((deduplicate_sources l).foldl dedupStep ([], [])).2 := rfl
      _ = [] ++ deduplicate_sources l := h1
      _ = deduplicate_sources l := by simp
  · intro l c hc
    have h0 := dedup_go_spec l [] [] (by simp) (by simp)
    have hfil := h0.2.2 c
    simp only [List.filter_nil] at hfil
    have hGne := filter_norm_ne_nil c l hc
    cases hGc : l.filter (fun s => decide (normalized_content s = c)) with
    | nil => exact absurd hGc hGne
    | cons g gs =>
      rw [hGc] at hfil
      obtain ⟨u, hu⟩ := bestFrom_isSome gs g
      have hbf : bestFrom ([] : List Source).head? (g :: gs) = some u := by
        simpa [bestFrom] using hu
      rw [hbf] at hfil
      have hle := bestFrom_le gs g u hu
      have hmem : u = g ∨ u ∈ gs := bestFrom_mem gs g u hu
      have huG : u ∈ l.filter (fun s => decide (normalized_content s = c)) := by
        rw [hGc]
        rcases hmem with rfl | hm
        · exact List.mem_cons_self _ _
        · exact List.mem_cons_of_mem g hm
      have huG2 := List.mem_filter.mp huG
      refine ⟨u, hfil, huG2.1, by simpa using huG2.2, ?_, ?_⟩
      · intro v hv hvc
        have hvG : v ∈ l.filter (fun s => decide (normalized_content s = c)) :=
          List.mem_filter.mpr ⟨hv, by simp [hvc]⟩
        rw [hGc] at hvG
        rcases List.mem_cons.mp hvG with rfl | hvm
        · exact hle.1
        · exact hle.2 v hvm
      · have hboundG : ∀ v ∈ g :: gs, v.relevance_score ≤ u.relevance_score := by
          intro v hv
          rcases List.mem_cons.mp hv with rfl | hvm
          · exact hle.1
          · exact hle.2 v hvm
        rw [← find_ge_eq_find_eq (g :: gs) u.relevance_score hboundG]
        exact bestFrom_first gs g u hu

theorem claim_C7_witness :
    ∃ u, (deduplicate_sources [Source.mk "vector" "Dup" 0.28 [], Source.mk "vector" "dup" 0.32 []]).filter
        (fun s => decide (normalized_content s = "dup")) = [u] ∧
      u ∈ [Source.mk "vector" "Dup" 0.28 [], Source.mk "vector" "dup" 0.32 []] ∧
      normalized_content u = "dup" ∧
      (∀ v ∈ [Source.mk "vector" "Dup" 0.28 [], Source.mk "vector" "dup" 0.32 []],
        normalized_content v = "dup" → v.relevance_score ≤ u.relevance_score) ∧
      ([Source.mk "vector" "Dup" 0.28 [], Source.mk "vector" "dup" 0.32 []].filter
          (fun v => decide (normalized_content v = "dup"))).find?
        (fun v => decide (v.relevance_score = u.relevance_score)) = some u :=
  claim_C7.2 [Source.mk "vector" "Dup" 0.28 [], Source.mk "vector" "dup" 0.32 []] "dup"
    (by decide)

theorem natDigitsAux_lt (fuel : Nat) : ∀ n d, d ∈ natDigitsAux fuel n → d < 10 := by
  induction fuel with
  | zero =>
    intro n d hd
    simp [natDigitsAux] at hd
  | succ fuel ih =>
    intro n d hd
    rw [natDigitsAux] at hd
    split at hd
    · simp at hd
    · rcases List.mem_cons.mp hd with rfl | hd2
      · exact Nat.mod_lt _ (by norm_num)
      · exact ih _ d hd2

theorem undigits_natDigitsAux (fuel : Nat) : ∀ n, n ≤ fuel → undigits (natDigitsAux fuel n) = n := by
  induction fuel with
  | zero =>
    intro n hn
    interval_cases n
    rfl
  | succ fuel ih =>
    intro n hn
    rw [natDigitsAux]
    split
    · rename_i h0
      rw [h0]
      rfl
    · rename_i h0
      rw [undigits]
      have hle : n / 10 ≤ fuel := by
        have h1 : n / 10 < n := Nat.div_lt_self (by omega) (by norm_num)
        omega
      rw [ih _ hle]
      exact Nat.mod_add_div n 10

theorem undigits_natDigits (n : Nat) : undigits (natDigits n) = n :=
  undigits_natDigitsAux n n (le_refl n)

theorem digitChar_isDigit (d : Nat) (hd : d < 10) : (digitChar d).isDigit = true := by
  interval_cases d <;> decide

theorem digitChar_inj (d1 d2 : Nat) (h1 : d1 < 10) (h2 : d2 < 10)
    (heq : digitChar d1 = digitChar d2) : d1 = d2 := by
  interval_cases d1 <;> interval_cases d2 <;> revert heq <;> decide

theorem map_digitChar_inj : ∀ l1 l2 : List Nat, (∀ d ∈ l1, d < 10) → (∀ d ∈ l2, d < 10) →
    l1.map digitChar = l2.map digitChar → l1 = l2 := by
  intro l1
  induction l1 with
  | nil =>
    intro l2 _ _ h
    cases l2 with
    | nil => rfl
    | cons d ds => simp at h
  | cons d ds ih =>
    intro l2 hb1 hb2 h
    cases l2 with
    | nil => simp at h
    | cons e es =>
      simp only [List.map_cons, List.cons.injEq] at h
      have hde : d = e := digitChar_inj d e (hb1 d (by simp)) (hb2 e (by simp)) h.1
      rw [hde, ih es (fun x hx => hb1 x (by simp [hx])) (fun x hx => hb2 x (by simp [hx])) h.2]

theorem reprNat_data_ne_nil (n : Nat) : (reprNat n).data ≠ [] := by
  unfold reprNat
  split
  · decide
  · rename_i h0
    show (((natDigits n).map digitChar).reverse) ≠ []
    intro hnil
    rw [List.reverse_eq_nil_iff] at hnil
    have hDnil : natDigits n = [] := by
      cases hD : natDigits n with
      | nil => rfl
      | cons d ds => rw [hD] at hnil; simp at hnil
    have := undigits_natDigits n
    rw [hDnil] at this
    exact h0 this.symm

theorem reprNat_data_isDigit (n : Nat) : ∀ c ∈ (reprNat n).data, c.isDigit = true := by
  unfold reprNat
  split
  · intro c hc
    rw [show ("0" : String).data = ['0'] from rfl] at hc
    rcases List.mem_singleton.mp hc with rfl
    decide
  · intro c hc
    have hc2 : c ∈ (natDigits n).map digitChar := List.mem_reverse.mp hc
    obtain ⟨d, hd, rfl⟩ := List.mem_map.mp hc2
    exact digitChar_isDigit d (natDigitsAux_lt n n d hd)

theorem reprNat_inj (m n : Nat) (heq : reprNat m = reprNat n) : m = n := by
  have key : ∀ k : Nat, k ≠ 0 → ("0" : String) ≠ ⟨((natDigits k).map digitChar).reverse⟩ := by
    intro k hk hbad
    have hd := congrArg String.data hbad
    rw [show ("0" : String).data = ['0'] from rfl] at hd
    have hrev := congrArg List.reverse hd
    rw [List.reverse_reverse, show (['0'] : List Char).reverse = ['0'] from rfl] at hrev
    cases hD : natDigits k with
    | nil =>
      rw [hD] at hrev
      simp at hrev
    | cons d ds =>
      rw [hD] at hrev
      simp only [List.map_cons] at hrev
      have hinj := List.cons.injEq (α := Char) '0' [] (digitChar d) (ds.map digitChar)
      rw [hrev.symm] at hinj
      have h1 : '0' = digitChar d ∧ ([] : List Char) = ds.map digitChar := by
        rw [← hinj]
      have hd10 : d < 10 := natDigitsAux_lt k k d (by
        show d ∈ natDigits k
        rw [hD]
        exact List.mem_cons_self _ _)
      have hd0 : d = 0 := (digitChar_inj 0 d (by norm_num) hd10 h1.1).symm
      have hds : ds = [] := by
        cases ds with
        | nil => rfl
        | cons e es => exact absurd h1.2.symm (by simp)
      have hu := undigits_natDigits k
      rw [hD, hd0, hds] at hu
      exact hk hu.symm
  unfold reprNat at heq
  by_cases hm : m = 0 <;> by_cases hn : n = 0
  · rw [hm, hn]
  · rw [if_pos hm, if_neg hn] at heq
    exact absurd heq (key n hn)
  · rw [if_neg hm, if_pos hn] at heq
    exact absurd heq.symm (key m hm)
  · rw [if_neg hm, if_neg hn] at heq
    have hd := congrArg String.data heq
    have hrev := congrArg List.reverse hd
    rw [List.reverse_reverse, List.reverse_reverse] at hrev
    have hD : natDigits m = natDigits n :=
      map_digitChar_inj _ _ (fun d hd2 => natDigitsAux_lt m m d hd2)
        (fun d hd2 => natDigitsAux_lt n n d hd2) hrev
    have h1 := undigits_natDigits m
    rw [hD, undigits_natDigits n] at h1
    exact h1.symm

theorem reprInt_data_cases (i : Int) : ∀ c ∈ (reprInt i).data, c.isDigit = true ∨ c = '-' := by
  cases i with
  | ofNat n => exact fun c hc => Or.inl (reprNat_data_isDigit n c hc)
  | negSucc n =>
    intro c hc
    rw [show reprInt (Int.negSucc n) = "-" ++ reprNat (n + 1) from rfl,
      String.data_append] at hc
    rcases List.mem_append.mp hc with h1 | h2
    · right
      rw [show ("-" : String).data = ['-'] from rfl] at h1
      exact List.mem_singleton.mp h1
    · exact Or.inl (reprNat_data_isDigit _ c h2)

theorem reprInt_data_ne_nil (i : Int) : (reprInt i).data ≠ [] := by
  cases i with
  | ofNat n => exact reprNat_data_ne_nil n
  | negSucc n =>
    rw [show reprInt (Int.negSucc n) = "-" ++ reprNat (n + 1) from rfl, String.data_append]
    simp

theorem reprInt_head (i : Int) :
    ∃ c cs, (reprInt i).data = c :: cs ∧ (c.isDigit = true ∨ c = '-') := by
  cases hd : (reprInt i).data with
  | nil => exact absurd hd (reprInt_data_ne_nil i)
  | cons c cs =>
    refine ⟨c, cs, rfl, reprInt_data_cases i c ?_⟩
    rw [hd]
    exact List.mem_cons_self _ _

theorem reprInt_inj (i j : Int) (heq : reprInt i = reprInt j) : i = j := by
  have mixed : ∀ (m n : Nat), reprNat m ≠ "-" ++ reprNat (n + 1) := by
    intro m n hbad
    have hd := congrArg String.data hbad
    rw [String.data_append, show ("-" : String).data = ['-'] from rfl] at hd
    cases hm : (reprNat m).data with
    | nil => exact reprNat_data_ne_nil m hm
    | cons c cs =>
      rw [hm] at hd
      have hc : c = '-' := by
        have := hd
        simp only [List.singleton_append, List.cons.injEq] at this
        exact this.1
      have hdig := reprNat_data_isDigit m c (by rw [hm]; exact List.mem_cons_self _ _)
      rw [hc] at hdig
      exact absurd hdig (by decide)
  cases i with
  | ofNat m =>
    cases j with
    | ofNat n =>
      have : m = n := reprNat_inj m n heq
      rw [this]
    | negSucc n => exact absurd heq (mixed m n)
  | negSucc m =>
    cases j with
    | ofNat n => exact absurd heq.symm (mixed n m)
    | negSucc n =>
      have hd := congrArg String.data heq
      rw [show reprInt (Int.negSucc m) = "-" ++ reprNat (m + 1) from rfl,
        show reprInt (Int.negSucc n) = "-" ++ reprNat (n + 1) from rfl,
        String.data_append, String.data_append] at hd
      have hd2 := List.append_cancel_left hd
      have hrn : reprNat (m + 1) = reprNat (n + 1) := String.ext hd2
      have hmn := reprNat_inj _ _ hrn
      have : m = n := by omega
      rw [this]

theorem append_sep_inj (c : Char) :
    ∀ (a1 : List Char) {a2 b1 b2 : List Char}, c ∉ a1 → c ∉ a2 →
      a1 ++ c :: b1 = a2 ++ c :: b2 → a1 = a2 ∧ b1 = b2 := by
  intro a1
  induction a1 with
  | nil =>
    intro a2 b1 b2 _ h2 h
    cases a2 with
    | nil =>
      simp only [List.nil_append, List.cons.injEq] at h
      exact ⟨rfl, h.2⟩
    | cons x xs =>
      simp only [List.nil_append, List.cons_append, List.cons.injEq] at h
      exfalso
      apply h2
      rw [h.1]
      exact List.mem_cons_self _ _
  | cons x xs ih =>
    intro a2 b1 b2 h1 h2 h
    cases a2 with
    | nil =>
      simp only [List.cons_append, List.nil_append, List.cons.injEq] at h
      exfalso
      apply h1
      rw [← h.1]
      exact List.mem_cons_self _ _
    | cons y ys =>
      simp only [List.cons_append, List.cons.injEq] at h
      have hxs : c ∉ xs := fun hm => h1 (List.mem_cons_of_mem x hm)
      have hys : c ∉ ys := fun hm => h2 (List.mem_cons_of_mem y hm)
      obtain ⟨ha, hb⟩ := ih hxs hys h.2
      exact ⟨by rw [h.1, ha], hb⟩

theorem slash_not_mem_reprInt (i : Int) : ('/' : Char) ∉ (reprInt i).data := by
  intro hmem
  rcases reprInt_data_cases i '/' hmem with h | h
  · exact absurd h (by decide)
  · exact absurd h (by decide)

theorem reprRat_data (q : ℚ) :
    (reprRat q).data = (reprInt q.num).data ++ '/' :: (reprNat q.den).data := by
  rw [show reprRat q = reprInt q.num ++ "/" ++ reprNat q.den from rfl,
    String.data_append, String.data_append,
    show ("/" : String).data = ['/'] from rfl, List.append_assoc, List.singleton_append]

theorem reprRat_inj (p q : ℚ) (heq : reprRat p = reprRat q) : p = q := by
  have hd := congrArg String.data heq
  rw [reprRat_data, reprRat_data] at hd
  obtain ⟨h1, h2⟩ := append_sep_inj '/' _ (slash_not_mem_reprInt p.num)
    (slash_not_mem_reprInt q.num) hd
  have hnum := reprInt_inj _ _ (String.ext h1)
  have hden := reprNat_inj _ _ (String.ext h2)
  exact Rat.ext hnum hden

theorem reprRat_head (q : ℚ) :
    ∃ c cs, (reprRat q).data = c :: cs ∧ (c.isDigit = true ∨ c = '-') := by
  obtain ⟨c, cs, hdata, hcls⟩ := reprInt_head q.num
  refine ⟨c, cs ++ '/' :: (reprNat q.den).data, ?_, hcls⟩
  rw [reprRat_data, hdata, List.cons_append]

theorem reprStr_data (v : String) :
    (pyQuote ++ v ++ pyQuote).data = Char.ofNat 39 :: (v.data ++ [Char.ofNat 39]) := by
  rw [String.data_append, String.data_append,
    show pyQuote.data = [Char.ofNat 39] from rfl, List.append_assoc, List.singleton_append]

theorem head_ne_of_data (s t : String) (c1 c2 : Char) (r1 r2 : List Char)
    (h1 : s.data = c1 :: r1) (h2 : t.data = c2 :: r2) (hne : c1 ≠ c2) : s ≠ t := by
  intro he
  rw [he, h2] at h1
  injection h1 with hh _
  exact hne hh.symm

theorem reprVal_inj (v w : OptVal) (heq : reprVal v = reprVal w) : v = w := by
  have hboolT : (("True" : String)).data = 'T' :: ['r', 'u', 'e'] := rfl
  have hboolF : (("False" : String)).data = 'F' :: ['a', 'l', 's', 'e'] := rfl
  have hqdig : (Char.ofNat 39).isDigit = false := by decide
  have hqdash : Char.ofNat 39 ≠ '-' := by decide
  cases v with
  | int i =>
    cases w with
    | int j => rw [reprInt_inj i j heq]
    | bool b =>
      exfalso
      obtain ⟨c, cs, hdata, hcls⟩ := reprInt_head i
      cases b with
      | true =>
        refine head_ne_of_data _ _ c 'T' cs _ hdata hboolT ?_ (by simpa using heq)
        rcases hcls with h | h
        · intro hc; rw [hc] at h; exact absurd h (by decide)
        · intro hc; rw [hc] at h; exact absurd h (by decide)
      | false =>
        refine head_ne_of_data _ _ c 'F' cs _ hdata hboolF ?_ (by simpa using heq)
        rcases hcls with h | h
        · intro hc; rw [hc] at h; exact absurd h (by decide)
        · intro hc; rw [hc] at h; exact absurd h (by decide)
    | rat q =>
      exfalso
      have hmem : ('/' : Char) ∈ (reprRat q).data := by
        rw [reprRat_data]
        exact List.mem_append.mpr (Or.inr (List.mem_cons_self _ _))
      rw [show reprVal (OptVal.int i) = reprInt i from rfl,
        show reprVal (OptVal.rat q) = reprRat q from rfl] at heq
      rw [← heq] at hmem
      exact slash_not_mem_reprInt i hmem
    | str u =>
      exfalso
      obtain ⟨c, cs, hdata, hcls⟩ := reprInt_head i
      refine head_ne_of_data _ _ c (Char.ofNat 39) cs _ hdata (reprStr_data u) ?_
        (by simpa using heq)
      rcases hcls with h | h
      · intro hc; rw [hc] at h; rw [hqdig] at h; exact absurd h (by simp)
      · intro hc; rw [hc] at h; exact hqdash h
  | bool a =>
    cases w with
    | int j =>
      exfalso
      obtain ⟨c, cs, hdata, hcls⟩ := reprInt_head j
      cases a with
      | true =>
        refine head_ne_of_data _ _ 'T' c _ cs hboolT hdata ?_ (by simpa using heq)
        rcases hcls with h | h
        · intro hc; rw [← hc] at h; exact absurd h (by decide)
        · intro hc; rw [← hc] at h; exact absurd h (by decide)
      | false =>
        refine head_ne_of_data _ _ 'F' c _ cs hboolF hdata ?_ (by simpa using heq)
        rcases hcls with h | h
        · intro hc; rw [← hc] at h; exact absurd h (by decide)
        · intro hc; rw [← hc] at h; exact absurd h (by decide)
    | bool b =>
      cases a <;> cases b
      · rfl
      · exact absurd heq (by decide)
      · exact absurd heq (by decide)
      · rfl
    | rat q =>
      exfalso
      obtain ⟨c, cs, hdata, hcls⟩ := reprRat_head q
      cases a with
      | true =>
        refine head_ne_of_data _ _ 'T' c _ cs hboolT hdata ?_ (by simpa using heq)
        rcases hcls with h | h
        · intro hc; rw [← hc] at h; exact absurd h (by decide)
        · intro hc; rw [← hc] at h; exact absurd h (by decide)
      | false =>
        refine head_ne_of_data _ _ 'F' c _ cs hboolF hdata ?_ (by simpa using heq)
        rcases hcls with h | h
        · intro hc; rw [← hc] at h; exact absurd h (by decide)
        · intro hc; rw [← hc] at h; exact absurd h (by decide)
    | str u =>
      exfalso
      cases a with
      | true =>
        exact head_ne_of_data _ _ 'T' (Char.ofNat 39) _ _ hboolT (reprStr_data u)
          (by decide) (by simpa using heq)
      | false =>
        exact head_ne_of_data _ _ 'F' (Char.ofNat 39) _ _ hboolF (reprStr_data u)
          (by decide) (by simpa using heq)
  | rat p =>
    cases w with
    | int j =>
      exfalso
      have hmem : ('/' : Char) ∈ (reprRat p).data := by
        rw [reprRat_data]
        exact List.mem_append.mpr (Or.inr (List.mem_cons_self _ _))
      rw [show reprVal (OptVal.rat p) = reprRat p from rfl,
        show reprVal (OptVal.int j) = reprInt j from rfl] at heq
      rw [heq] at hmem
      exact slash_not_mem_reprInt j hmem
    | bool b =>
      exfalso
      obtain ⟨c, cs, hdata, hcls⟩ := reprRat_head p
      cases b with
      | true =>
        refine head_ne_of_data _ _ c 'T' cs _ hdata hboolT ?_ (by simpa using heq)
        rcases hcls with h | h
        · intro hc; rw [hc] at h; exact absurd h (by decide)
        · intro hc; rw [hc] at h; exact absurd h (by decide)
      | false =>
        refine head_ne_of_data _ _ c 'F' cs _ hdata hboolF ?_ (by simpa using heq)
        rcases hcls with h | h
        · intro hc; rw [hc] at h; exact absurd h (by decide)
        · intro hc; rw [hc] at h; exact absurd h (by decide)
    | rat q => rw [reprRat_inj p q heq]
    | str u =>
      exfalso
      obtain ⟨c, cs, hdata, hcls⟩ := reprRat_head p
      refine head_ne_of_data _ _ c (Char.ofNat 39) cs _ hdata (reprStr_data u) ?_
        (by simpa using heq)
      rcases hcls with h | h
      · intro hc; rw [hc] at h; rw [hqdig] at h; exact absurd h (by simp)
      · intro hc; rw [hc] at h; exact hqdash h
  | str u =>
    cases w with
    | int j =>
      exfalso
      obtain ⟨c, cs, hdata, hcls⟩ := reprInt_head j
      refine head_ne_of_data _ _ (Char.ofNat 39) c _ cs (reprStr_data u) hdata ?_
        (by simpa using heq)
      rcases hcls with h | h
      · intro hc; rw [← hc] at h; rw [hqdig] at h; exact absurd h (by simp)
      · intro hc; rw [← hc] at h; exact hqdash h
    | bool b =>
      exfalso
      cases b with
      | true =>
        exact head_ne_of_data _ _ (Char.ofNat 39) 'T' _ _ (reprStr_data u) hboolT
          (by decide) (by simpa using heq)
      | false =>
        exact head_ne_of_data _ _ (Char.ofNat 39) 'F' _ _ (reprStr_data u) hboolF
          (by decide) (by simpa using heq)
    | rat q =>
      exfalso
      obtain ⟨c, cs, hdata, hcls⟩ := reprRat_head q
      refine head_ne_of_data _ _ (Char.ofNat 39) c _ cs (reprStr_data u) hdata ?_
        (by simpa using heq)
      rcases hcls with h | h
      · intro hc; rw [← hc] at h; rw [hqdig] at h; exact absurd h (by simp)
      · intro hc; rw [← hc] at h; exact hqdash h
    | str t =>
      have hd := congrArg String.data heq
      rw [show reprVal (OptVal.str u) = pyQuote ++ u ++ pyQuote from rfl,
        show reprVal (OptVal.str t) = pyQuote ++ t ++ pyQuote from rfl,
        reprStr_data, reprStr_data] at hd
      injection hd with _ hd2
      have := List.append_cancel_right hd2
      rw [String.ext this]

/-- C3 -- The cache fingerprint is determined by the normalized query
together with the values looked up (with their defaults) for
max_sources, include_graph, include_vector and similarity_threshold —
so any two option maps agreeing on those four lookups fingerprint
identically, independently of key order or extra keys — and changing
exactly one of the four values changes the fingerprint. -/
theorem claim_C3 (cfg : Config) (q : String) (O1 O2 : Options) :
    (oget O1 "max_sources" (OptVal.int 5) = oget O2 "max_sources" (OptVal.int 5) →
     oget O1 "include_graph" (OptVal.bool true) = oget O2 "include_graph" (OptVal.bool true) →
     oget O1 "include_vector" (OptVal.bool true) = oget O2 "include_vector" (OptVal.bool true) →
     oget O1 "similarity_threshold" (OptVal.rat cfg.similarity_threshold) =
       oget O2 "similarity_threshold" (OptVal.rat cfg.similarity_threshold) →
     generate_cache_key cfg q O1 = generate_cache_key cfg q O2) ∧
    (oget O1 "include_graph" (OptVal.bool true) = oget O2 "include_graph" (OptVal.bool true) →
     oget O1 "include_vector" (OptVal.bool true) = oget O2 "include_vector" (OptVal.bool true) →
     oget O1 "similarity_threshold" (OptVal.rat cfg.similarity_threshold) =
       oget O2 "similarity_threshold" (OptVal.rat cfg.similarity_threshold) →
     oget O1 "max_sources" (OptVal.int 5) ≠ oget O2 "max_sources" (OptVal.int 5) →
     generate_cache_key cfg q O1 ≠ generate_cache_key cfg q O2) ∧
    (oget O1 "max_sources" (OptVal.int 5) = oget O2 "max_sources" (OptVal.int 5) →
     oget O1 "include_vector" (OptVal.bool true) = oget O2 "include_vector" (OptVal.bool true) →
     oget O1 "similarity_threshold" (OptVal.rat cfg.similarity_threshold) =
       oget O2 "similarity_threshold" (OptVal.rat cfg.similarity_threshold) →
     oget O1 "include_graph" (OptVal.bool true) ≠ oget O2 "include_graph" (OptVal.bool true) →
     generate_cache_key cfg q O1 ≠ generate_cache_key cfg q O2) ∧
    (oget O1 "max_sources" (OptVal.int 5) = oget O2 "max_sources" (OptVal.int 5) →
     oget O1 "include_graph" (OptVal.bool true) = oget O2 "include_graph" (OptVal.bool true) →
     oget O1 "similarity_threshold" (OptVal.rat cfg.similarity_threshold) =
       oget O2 "similarity_threshold" (OptVal.rat cfg.similarity_threshold) →
     oget O1 "include_vector" (OptVal.bool true) ≠ oget O2 "include_vector" (OptVal.bool true) →
     generate_cache_key cfg q O1 ≠ generate_cache_key cfg q O2) ∧
    (oget O1 "max_sources" (OptVal.int 5) = oget O2 "max_sources" (OptVal.int 5) →
     oget O1 "include_graph" (OptVal.bool true) = oget O2 "include_graph" (OptVal.bool true) →
     oget O1 "include_vector" (OptVal.bool true) = oget O2 "include_vector" (OptVal.bool true) →
     oget O1 "similarity_threshold" (OptVal.rat cfg.similarity_threshold) ≠
       oget O2 "similarity_threshold" (OptVal.rat cfg.similarity_threshold) →
     generate_cache_key cfg q O1 ≠ generate_cache_key cfg q O2) := by
  refine ⟨?_, ?_, ?_, ?_, ?_⟩
  · intro hms hig hiv hst
    unfold generate_cache_key
    rw [hms, hig, hiv, hst]
  · intro hig hiv hst hne heq
    apply hne
    unfold generate_cache_key at heq
    rw [hig, hiv, hst] at heq
    have hd := congrArg String.data heq
    simp only [String.data_append, List.append_assoc] at hd
    have h1 := List.append_cancel_left hd
    have h2 := List.append_cancel_left h1
    have h3 := List.append_cancel_left h2
    have h4 := List.append_cancel_left h3
    have h5 := List.append_cancel_left h4
    have h6 := List.append_cancel_right h5
    exact reprVal_inj _ _ (String.ext h6)
  · intro hms hiv hst hne heq
    apply hne
    unfold generate_cache_key at heq
    rw [hms, hiv, hst] at heq
    have hd := congrArg String.data heq
    simp only [String.data_append, List.append_assoc] at hd
    have h1 := List.append_cancel_left hd
    have h2 := List.append_cancel_right h1
    exact reprVal_inj _ _ (String.ext h2)
  · intro hms hig hst hne heq
    apply hne
    unfold generate_cache_key at heq
    rw [hms, hig, hst] at heq
    have hd := congrArg String.data heq
    simp only [String.data_append, List.append_assoc] at hd
    have h1 := List.append_cancel_left hd
    have h2 := List.append_cancel_left h1
    have h3 := List.append_cancel_left h2
    have h4 := List.append_cancel_right h3
    exact reprVal_inj _ _ (String.ext h4)
  · intro hms hig hiv hne heq
    apply hne
    unfold generate_cache_key at heq
    rw [hms, hig, hiv] at heq
    have hd := congrArg String.data heq
    simp only [String.data_append, List.append_assoc] at hd
    have h1 := List.append_cancel_left hd
    have h2 := List.append_cancel_left h1
    have h3 := List.append_cancel_left h2
    have h4 := List.append_cancel_left h3
    have h5 := List.append_cancel_left h4
    have h6 := List.append_cancel_left h5
    have h7 := List.append_cancel_left h6
    have h8 := List.append_cancel_left h7
    have h9 := List.append_cancel_left h8
    have h10 := List.append_cancel_right h9
    exact reprVal_inj _ _ (String.ext h10)

theorem claim_C3_witness :
    generate_cache_key {} "Some Query"
        [("include_graph", OptVal.bool false), ("max_sources", OptVal.int 7)] =
      generate_cache_key {} "Some Query"
        [("max_sources", OptVal.int 7), ("include_graph", OptVal.bool false)] ∧
    generate_cache_key {} "Some Query"
        [("include_graph", OptVal.bool false), ("max_sources", OptVal.int 7)] ≠
      generate_cache_key {} "Some Query"
        [("include_graph", OptVal.bool false), ("max_sources", OptVal.int 8)] :=
  ⟨(claim_C3 {} "Some Query" _ _).1 rfl rfl rfl rfl,
   (claim_C3 {} "Some Query" _ _).2.1 rfl rfl rfl (by decide)⟩

unseal Rat.mul Rat.add Rat.sub Rat.ofScientific Rat.inv in
/-- C2 -- Contrary to the claim, when the graph client is not configured
(`neo4j_client = None`) but `include_graph = true` and the vector
backend is healthy with a hit above threshold, the call is NOT a silent
skip: the single gathered result (the vector hit list) is attributed to
the graph slot by the `elif include_graph and i == 0` arm, so
`_merge_and_rank_results` raises `AttributeError` when it accesses
`.entities` on a list.  This theorem evaluates the embedded code at the
failing input: the result-processing loop puts the vector hits into the
graph slot (leaving the vector slot at its `[]` initializer), and the
call errors instead of returning the vector-derived sources. -/
theorem claim_C2 :
    processResults true true
        (gatherResults (Backends.mk Option.none
          (some (VectorBackend.mk true [VectorHit.mk "d1" "some document text" [] 0.2 0.8])))
          true true 0.7) =
      (PyObj.vecList [VectorHit.mk "d1" "some document text" [] 0.2 0.8], PyObj.vecList []) ∧
    retrieve_knowledge {} (Backends.mk Option.none
        (some (VectorBackend.mk true [VectorHit.mk "d1" "some document text" [] 0.2 0.8])))
        [] 0 "q" 5 true true Option.none =
      Except.error "AttributeError: object has no attribute entities" := by
  constructor
  · rfl
  · rfl

theorem mem_replaceIfHigher (h : String) (src : Source) :
    ∀ l x, x ∈ replaceIfHigher h src l → x ∈ l ∨ x = src := by
  intro l
  induction l with
  | nil => intro x hx; simp [replaceIfHigher] at hx
  | cons s rest ih =>
    intro x hx
    by_cases hs : normalized_content s = h
    · simp only [replaceIfHigher, if_pos hs] at hx
      rcases List.mem_cons.mp hx with hx1 | hx2
      · split at hx1
        · exact Or.inr hx1
        · exact Or.inl (by rw [hx1]; exact List.mem_cons_self _ _)
      · exact Or.inl (List.mem_cons_of_mem s hx2)
    · simp only [replaceIfHigher, if_neg hs] at hx
      rcases List.mem_cons.mp hx with hx1 | hx2
      · exact Or.inl (by rw [hx1]; exact List.mem_cons_self _ _)
      · rcases ih x hx2 with h1 | h2
        · exact Or.inl (List.mem_cons_of_mem s h1)
        · exact Or.inr h2

theorem mem_dedup_fold : ∀ (l : List Source) (seen : List String) (ded : List Source) x,
    x ∈ (l.foldl dedupStep (seen, ded)).2 → x ∈ ded ∨ x ∈ l := by
  intro l
  induction l with
  | nil => intro seen ded x hx; exact Or.inl (by simpa using hx)
  | cons s rest ih =>
    intro seen ded x hx
    rw [List.foldl_cons] at hx
    by_cases hs : normalized_content s ∉ seen
    · rw [show dedupStep (seen, ded) s = (normalized_content s :: seen, ded ++ [s]) by
        simp [dedupStep, hs]] at hx
      rcases ih _ _ x hx with h1 | h2
      · rcases List.mem_append.mp h1 with h3 | h4
        · exact Or.inl h3
        · exact Or.inr (by simp at h4; simp [h4])
      · exact Or.inr (List.mem_cons_of_mem s h2)
    · rw [show dedupStep (seen, ded) s = (seen, replaceIfHigher (normalized_content s) s ded) by
        simp [dedupStep, hs]] at hx
      rcases ih _ _ x hx with h1 | h2
      · rcases mem_replaceIfHigher _ s ded x h1 with h3 | h4
        · exact Or.inl h3
        · exact Or.inr (by simp [h4])
      · exact Or.inr (List.mem_cons_of_mem s h2)

theorem mem_deduplicate (l : List Source) (x : Source) (hx : x ∈ deduplicate_sources l) :
    x ∈ l := by
  rcases mem_dedup_fold l [] [] x hx with h1 | h2
  · simp at h1
  · exact h2

theorem score_source_type (cfg : Config) (kw : Finset String) (s : Source) :
    (score_source cfg kw s).type = s.type := rfl

theorem mem_rank_sources (cfg : Config) (l : List Source) (q : String) (x : Source)
    (hx : x ∈ rank_sources cfg l q) : ∃ t ∈ l, x.type = t.type := by
  unfold rank_sources at hx
  have hx2 : x ∈ l.map (score_source cfg (keywordSet q)) :=
    (pySortDesc_perm _).mem_iff.mp hx
  obtain ⟨t, ht, rfl⟩ := List.mem_map.mp hx2
  exact ⟨t, ht, rfl⟩

theorem mem_aggregate_context (now : ℚ) (l : List Source) (x : Source)
    (hx : x ∈ aggregate_context now l) : ∃ t ∈ l, x.type = t.type := by
  unfold aggregate_context at hx
  simp only [List.map_map] at hx
  obtain ⟨t, ht, rfl⟩ := List.mem_map.mp hx
  refine ⟨t, ht, ?_⟩
  simp only [Function.comp]
  split
  · split <;> rfl
  · rfl

theorem convert_vector_types (cfg : Config) (l : List VectorHit) :
    ∀ s ∈ convert_vector_to_sources cfg l, s.type = "vector" := by
  intro s hs
  obtain ⟨r, _, rfl⟩ := List.mem_map.mp hs
  rfl

theorem convert_graph_types (cfg : Config) (g : GraphQueryResult) (q : String) :
    ∀ s ∈ convert_graph_to_sources cfg g q, s.type = "graph" := by
  intro s hs
  unfold convert_graph_to_sources at hs
  obtain ⟨e, _, he⟩ := List.mem_filterMap.mp hs
  split at he
  · cases he
    rfl
  · cases he

/-- The merged pipeline keeps provenance types. -/
theorem pipeline_types (cfg : Config) (X : List Source) (q : String) (m : Nat) (now : ℚ)
    (ty : String) (hX : ∀ s ∈ X, s.type = ty) :
    ∀ s ∈ aggregate_context now ((rank_sources cfg (deduplicate_sources X) q).take m),
      s.type = ty := by
  intro s hs
  obtain ⟨t, ht, hst⟩ := mem_aggregate_context now _ s hs
  have ht2 : t ∈ rank_sources cfg (deduplicate_sources X) q := List.mem_of_mem_take ht
  obtain ⟨u, hu, htu⟩ := mem_rank_sources cfg _ q t ht2
  have hu2 : u ∈ X := mem_deduplicate X u hu
  rw [hst, htu]
  exact hX u hu2

theorem get_from_cache_empty (cfg : Config) (key : String) (now : ℚ) :
    get_from_cache cfg [] key now = (Option.none, []) := by
  unfold get_from_cache
  split
  · rfl
  · rfl

theorem processResults_two (a b : PyObj) : processResults true true [a, b] = (a, b) := rfl

theorem merge_graph_down (cfg : Config) (l : List VectorHit) (q : String) (m : Nat) (now : ℚ) :
    merge_and_rank_results cfg PyObj.pynone (PyObj.vecList l) q m now =
      Except.ok (aggregate_context now
        ((rank_sources cfg (deduplicate_sources (convert_vector_to_sources cfg l)) q).take m)) := by
  unfold merge_and_rank_results
  by_cases hl : l = []
  · subst hl
    rfl
  · simp only [pytruthy, Bind.bind, Except.bind,
      if_neg (by simp : ¬ (false = true)),
      if_pos (by simp [hl] : (decide (l ≠ []) = true))]
    rfl

theorem merge_vector_down (cfg : Config) (r : GraphQueryResult) (q : String) (m : Nat)
    (now : ℚ) :
    merge_and_rank_results cfg (PyObj.graphRes r) (PyObj.vecList []) q m now =
      Except.ok (aggregate_context now
        ((rank_sources cfg (deduplicate_sources (convert_graph_to_sources cfg r q)) q).take m)) := by
  unfold merge_and_rank_results
  simp only [pytruthy, Bind.bind, Except.bind, if_pos trivial,
    if_neg (by simp : ¬ (decide (([] : List VectorHit) ≠ []) = true)),
    List.append_nil, List.nil_append]

theorem merge_both_down (cfg : Config) (q : String) (m : Nat) (now : ℚ) :
    merge_and_rank_results cfg PyObj.pynone (PyObj.vecList []) q m now = Except.ok [] := by
  unfold merge_and_rank_results
  simp only [pytruthy, Bind.bind, Except.bind,
    if_neg (by simp : ¬ (false = true)),
    if_neg (by simp : ¬ (decide (([] : List VectorHit) ≠ []) = true)),
    List.nil_append]
  rw [show deduplicate_sources [] = [] from rfl,
    show rank_sources cfg [] q = [] from rfl, List.take_nil]
  rfl

/-- C1 -- With both backend clients configured and both `include_*`
flags true on a fresh cache: a failing graph health check yields a
successful result whose sources are all vector-typed; a failing vector
health check yields all graph-typed sources; both failing yields a
successful empty result; and both flags false also yields a successful
empty result, with no exception in any of the four situations. -/
theorem claim_C1 (cfg : Config) (g : GraphBackend) (v : VectorBackend) (now : ℚ)
    (query : String) (max_sources : Nat) (st : Option ℚ) :
    (g.healthy = false →
      ∃ res cache1, retrieve_knowledge cfg (Backends.mk (some g) (some v)) [] now query
          max_sources true true st = Except.ok (res, cache1) ∧
        ∀ s ∈ res.sources, s.type = "vector") ∧
    (v.healthy = false →
      ∃ res cache1, retrieve_knowledge cfg (Backends.mk (some g) (some v)) [] now query
          max_sources true true st = Except.ok (res, cache1) ∧
        ∀ s ∈ res.sources, s.type = "graph") ∧
    (g.healthy = false → v.healthy = false →
      ∃ res cache1, retrieve_knowledge cfg (Backends.mk (some g) (some v)) [] now query
          max_sources true true st = Except.ok (res, cache1) ∧ res.sources = []) ∧
    (∃ res cache1, retrieve_knowledge cfg (Backends.mk (some g) (some v)) [] now query
        max_sources false false st = Except.ok (res, cache1) ∧ res.sources = []) := by
  have hfull : ∀ ig iv : Bool,
      full_retrieval cfg (Backends.mk (some g) (some v)) now query max_sources ig iv
          (st.getD cfg.similarity_threshold) =
        (merge_and_rank_results cfg
            (processResults ig iv (gatherResults (Backends.mk (some g) (some v)) ig iv
              (st.getD cfg.similarity_threshold))).1
            (processResults ig iv (gatherResults (Backends.mk (some g) (some v)) ig iv
              (st.getD cfg.similarity_threshold))).2
            query max_sources now).map
          (fun ms => (ms, (processResults ig iv (gatherResults (Backends.mk (some g) (some v))
            ig iv (st.getD cfg.similarity_threshold))).1,
            (processResults ig iv (gatherResults (Backends.mk (some g) (some v)) ig iv
              (st.getD cfg.similarity_threshold))).2)) := by
    intro ig iv
    rfl
  refine ⟨?_, ?_, ?_, ?_⟩
  · intro hg
    have hgather : gatherResults (Backends.mk (some g) (some v)) true true
        (st.getD cfg.similarity_threshold) =
        [PyObj.pynone, PyObj.vecList (retrieve_from_vector v (st.getD cfg.similarity_threshold))] := by
      simp [gatherResults, retrieve_from_graph, hg]
    simp only [retrieve_knowledge, get_from_cache_empty]
    rw [hfull true true, hgather, processResults_two, merge_graph_down]
    refine ⟨_, _, rfl, ?_⟩
    exact pipeline_types cfg _ query max_sources now "vector"
      (convert_vector_types cfg _)
  · intro hv
    have hvec : retrieve_from_vector v (st.getD cfg.similarity_threshold) = [] := by
      simp [retrieve_from_vector, hv]
    have hgather : gatherResults (Backends.mk (some g) (some v)) true true
        (st.getD cfg.similarity_threshold) =
        [retrieve_from_graph g, PyObj.vecList []] := by
      simp [gatherResults, hvec]
    simp only [retrieve_knowledge, get_from_cache_empty]
    rw [hfull true true, hgather, processResults_two]
    by_cases hg : g.healthy
    · have hgr : retrieve_from_graph g = PyObj.graphRes g.result := by
        simp [retrieve_from_graph, hg]
      rw [hgr, merge_vector_down]
      refine ⟨_, _, rfl, ?_⟩
      exact pipeline_types cfg _ query max_sources now "graph"
        (convert_graph_types cfg _ query)
    · have hgr : retrieve_from_graph g = PyObj.pynone := by
        simp [retrieve_from_graph, hg]
      rw [hgr, merge_both_down]
      exact ⟨_, _, rfl, by simp⟩
  · intro hg hv
    have hvec : retrieve_from_vector v (st.getD cfg.similarity_threshold) = [] := by
      simp [retrieve_from_vector, hv]
    have hgather : gatherResults (Backends.mk (some g) (some v)) true true
        (st.getD cfg.similarity_threshold) = [PyObj.pynone, PyObj.vecList []] := by
      simp [gatherResults, retrieve_from_graph, hg, hvec]
    simp only [retrieve_knowledge, get_from_cache_empty]
    rw [hfull true true, hgather, processResults_two, merge_both_down]
    exact ⟨_, _, rfl, rfl⟩
  · have hgather : gatherResults (Backends.mk (some g) (some v)) false false
        (st.getD cfg.similarity_threshold) = [] := by
      simp [gatherResults]
    simp only [retrieve_knowledge, get_from_cache_empty]
    rw [hfull false false, hgather]
    rw [show processResults false false [] = (PyObj.pynone, PyObj.vecList []) from rfl,
      merge_both_down]
    exact ⟨_, _, rfl, rfl⟩

theorem claim_C1_witness :
    ∃ res cache1,
      retrieve_knowledge {} (Backends.mk (some (GraphBackend.mk false (GraphQueryResult.mk [] [])))
          (some (VectorBackend.mk true [VectorHit.mk "d1" "doc" [] 0.2 0.8])))
        [] 0 "q" 5 true true Option.none = Except.ok (res, cache1) ∧
      ∀ s ∈ res.sources, s.type = "vector" :=
  (claim_C1 {} (GraphBackend.mk false (GraphQueryResult.mk [] []))
    (VectorBackend.mk true [VectorHit.mk "d1" "doc" [] 0.2 0.8]) 0 "q" 5 Option.none).1 rfl

theorem store_below_capacity (cfg : Config) (cache : Cache) (key : String)
    (s : List Source) (now : ℚ) (hen : cfg.cache_enabled = true)
    (hlt : cache.length < cfg.max_cache_size) :
    store_in_cache cfg cache key s now = cset cache key (CacheEntry.mk s now 0) := by
  unfold store_in_cache
  rw [if_neg (by simp [hen]), if_neg (by omega)]

theorem cset_nil (key : String) (e : CacheEntry) : cset [] key e = [(key, e)] := by
  simp [cset, List.find?]

theorem cset_singleton (key : String) (e e2 : CacheEntry) :
    cset [(key, e)] key e2 = [(key, e2)] := by
  simp [cset, List.find?]

theorem clookup_singleton (key : String) (e : CacheEntry) :
    clookup [(key, e)] key = some e := by
  simp [clookup, List.find?]

/-- C9 -- An empty retrieval result is stored in the cache, but a cached
empty list is falsy at the `if cached_sources:` check, so an identical
call within the TTL still reports `cache_hit = false` and re-runs the
full retrieval (re-storing the entry with the new timestamp).  Stated
for a service with caching enabled whose capacity is at least 2 (so the
eviction branch is not taken) and whose full retrieval yields an empty
source list at both call times. -/
theorem claim_C9 (cfg : Config) (be : Backends) (query : String) (max_sources : Nat)
    (ig iv : Bool) (st : Option ℚ) (now now2 : ℚ) (g1 v1 g2 v2 : PyObj)
    (hen : cfg.cache_enabled = true)
    (hmax : 2 ≤ cfg.max_cache_size)
    (hfull1 : full_retrieval cfg be now query max_sources ig iv
      (st.getD cfg.similarity_threshold) = Except.ok ([], g1, v1))
    (hfull2 : full_retrieval cfg be now2 query max_sources ig iv
      (st.getD cfg.similarity_threshold) = Except.ok ([], g2, v2))
    (httl : now2 - now ≤ cfg.cache_ttl) :
    ∃ res1 res2 cache2,
      retrieve_knowledge cfg be [] now query max_sources ig iv st =
        Except.ok (res1, [(generate_cache_key cfg query
          [("max_sources", OptVal.int max_sources), ("include_graph", OptVal.bool ig),
           ("include_vector", OptVal.bool iv),
           ("similarity_threshold", OptVal.rat (st.getD cfg.similarity_threshold))],
          CacheEntry.mk [] now 0)]) ∧
      res1.cache_hit = false ∧ res1.sources = [] ∧
      retrieve_knowledge cfg be [(generate_cache_key cfg query
          [("max_sources", OptVal.int max_sources), ("include_graph", OptVal.bool ig),
           ("include_vector", OptVal.bool iv),
           ("similarity_threshold", OptVal.rat (st.getD cfg.similarity_threshold))],
          CacheEntry.mk [] now 0)] now2 query max_sources ig iv st =
        Except.ok (res2, cache2) ∧
      res2.cache_hit = false ∧ res2.sources = [] ∧
      cache2 = [(generate_cache_key cfg query
          [("max_sources", OptVal.int max_sources), ("include_graph", OptVal.bool ig),
           ("include_vector", OptVal.bool iv),
           ("similarity_threshold", OptVal.rat (st.getD cfg.similarity_threshold))],
          CacheEntry.mk [] now2 0)] := by
  set key := generate_cache_key cfg query
    [("max_sources", OptVal.int max_sources), ("include_graph", OptVal.bool ig),
     ("include_vector", OptVal.bool iv),
     ("similarity_threshold", OptVal.rat (st.getD cfg.similarity_threshold))] with hkey
  have h1 : retrieve_knowledge cfg be [] now query max_sources ig iv st =
      Except.ok (RetrievalResult.mk [] g1 v1 false, [(key, CacheEntry.mk [] now 0)]) := by
    simp only [retrieve_knowledge, get_from_cache_empty]
    rw [← hkey, hfull1]
    dsimp only
    rw [store_below_capacity cfg [] key [] now hen (by simp; omega), cset_nil]
  have hbump : get_from_cache cfg [(key, CacheEntry.mk [] now 0)] key now2 =
      (some [], [(key, CacheEntry.mk [] now 1)]) := by
    simp only [get_from_cache]
    rw [if_neg (by simp [hen]), clookup_singleton]
    dsimp only
    rw [if_neg (by simp only [expired, decide_eq_true_eq]; simp; linarith), cset_singleton]
  have h2 : retrieve_knowledge cfg be [(key, CacheEntry.mk [] now 0)] now2 query max_sources
      ig iv st = Except.ok (RetrievalResult.mk [] g2 v2 false,
        [(key, CacheEntry.mk [] now2 0)]) := by
    simp only [retrieve_knowledge]
    rw [← hkey, hbump]
    dsimp only
    rw [if_neg (by simp)]
    rw [hfull2]
    dsimp only
    rw [store_below_capacity cfg [(key, CacheEntry.mk [] now 1)] key [] now2 hen
      (by simp; omega), cset_singleton]
  exact ⟨RetrievalResult.mk [] g1 v1 false, RetrievalResult.mk [] g2 v2 false,
    [(key, CacheEntry.mk [] now2 0)], h1, rfl, rfl, h2, rfl, rfl, rfl⟩

unseal Rat.sub in
theorem claim_C9_witness :
    ∃ res1 res2 cache2,
      retrieve_knowledge {} (Backends.mk (some (GraphBackend.mk false (GraphQueryResult.mk [] [])))
          (some (VectorBackend.mk false []))) [] 0 "q" 5 true true Option.none =
        Except.ok (res1, [(generate_cache_key {} "q"
          [("max_sources", OptVal.int 5), ("include_graph", OptVal.bool true),
           ("include_vector", OptVal.bool true),
           ("similarity_threshold", OptVal.rat ((Option.none : Option ℚ).getD
             (Config.similarity_threshold {})))],
          CacheEntry.mk [] 0 0)]) ∧
      res1.cache_hit = false ∧ res1.sources = [] ∧
      retrieve_knowledge {} (Backends.mk (some (GraphBackend.mk false (GraphQueryResult.mk [] [])))
          (some (VectorBackend.mk false []))) [(generate_cache_key {} "q"
          [("max_sources", OptVal.int 5), ("include_graph", OptVal.bool true),
           ("include_vector", OptVal.bool true),
           ("similarity_threshold", OptVal.rat ((Option.none : Option ℚ).getD
             (Config.similarity_threshold {})))],
          CacheEntry.mk [] 0 0)] 0 "q" 5 true true Option.none =
        Except.ok (res2, cache2) ∧
      res2.cache_hit = false ∧ res2.sources = [] ∧
      cache2 = [(generate_cache_key {} "q"
          [("max_sources", OptVal.int 5), ("include_graph", OptVal.bool true),
           ("include_vector", OptVal.bool true),
           ("similarity_threshold", OptVal.rat ((Option.none : Option ℚ).getD
             (Config.similarity_threshold {})))],
          CacheEntry.mk [] 0 0)] :=
  claim_C9 {} (Backends.mk (some (GraphBackend.mk false (GraphQueryResult.mk [] [])))
      (some (VectorBackend.mk false []))) "q" 5 true true Option.none 0 0
    PyObj.pynone (PyObj.vecList []) PyObj.pynone (PyObj.vecList [])
    rfl (by decide) rfl rfl (by decide)

theorem orderedInsertTs_perm (x : String × CacheEntry) :
    ∀ l : Cache, (orderedInsertTs x l).Perm (x :: l) := by
  intro l
  induction l with
  | nil => exact List.Perm.refl _
  | cons y ys ih =>
    unfold orderedInsertTs
    split
    · exact List.Perm.refl _
    · exact (ih.cons y).trans (List.Perm.swap x y ys)

theorem pySortTs_perm : ∀ l : Cache, (pySortTs l).Perm l := by
  intro l
  induction l with
  | nil => exact List.Perm.refl _
  | cons x xs ih =>
    unfold pySortTs
    exact (orderedInsertTs_perm x (pySortTs xs)).trans (ih.cons x)

theorem orderedInsertTs_pairwise (x : String × CacheEntry) :
    ∀ l : Cache, l.Pairwise (fun a b => a.2.timestamp ≤ b.2.timestamp) →
      (orderedInsertTs x l).Pairwise (fun a b => a.2.timestamp ≤ b.2.timestamp) := by
  intro l
  induction l with
  | nil => intro _; simp [orderedInsertTs]
  | cons y ys ih =>
    intro hp
    rw [List.pairwise_cons] at hp
    unfold orderedInsertTs
    split
    · rename_i hxy
      rw [List.pairwise_cons]
      refine ⟨?_, List.pairwise_cons.mpr hp⟩
      intro b hb
      rcases List.mem_cons.mp hb with rfl | hb2
      · exact hxy
      · exact le_trans hxy (hp.1 b hb2)
    · rename_i hxy
      rw [List.pairwise_cons]
      constructor
      · intro b hb
        rcases List.mem_cons.mp ((orderedInsertTs_perm x ys).mem_iff.mp hb) with rfl | hb2
        · exact le_of_not_le hxy
        · exact hp.1 b hb2
      · exact ih hp.2

theorem pySortTs_pairwise :
    ∀ l : Cache, (pySortTs l).Pairwise (fun a b => a.2.timestamp ≤ b.2.timestamp) := by
  intro l
  induction l with
  | nil => simp [pySortTs]
  | cons x xs ih =>
    unfold pySortTs
    exact orderedInsertTs_pairwise x (pySortTs xs) ih

theorem cerase_of_not_mem (c : Cache) (key : String)
    (h : key ∉ c.map Prod.fst) : cerase c key = c := by
  induction c with
  | nil => rfl
  | cons p rest ih =>
    rw [List.map_cons] at h
    unfold cerase
    rw [List.filter_cons_of_pos (by
      simp only [decide_eq_true_eq]
      intro hp
      exact h (by rw [hp]; exact List.mem_cons_self _ _))]
    have := ih (fun hm => h (List.mem_cons_of_mem _ hm))
    unfold cerase at this
    rw [this]

theorem cerase_length_mem (c : Cache) (key : String)
    (hmem : key ∈ c.map Prod.fst) (hnd : (c.map Prod.fst).Nodup) :
    (cerase c key).length + 1 = c.length := by
  induction c with
  | nil => simp at hmem
  | cons p rest ih =>
    rw [List.map_cons, List.nodup_cons] at hnd
    by_cases hp : p.1 = key
    · unfold cerase
      rw [List.filter_cons_of_neg (by simp [hp])]
      have hrest : key ∉ rest.map Prod.fst := by rw [← hp]; exact hnd.1
      have := cerase_of_not_mem rest key hrest
      unfold cerase at this
      rw [this, List.length_cons]
    · rw [List.map_cons, List.mem_cons] at hmem
      rcases hmem with h1 | h2
      · exact absurd h1.symm hp
      · unfold cerase
        rw [List.filter_cons_of_pos (by simp [hp])]
        have := ih h2 hnd.2
        unfold cerase at this
        rw [List.length_cons, List.length_cons, ← this]

theorem cerase_sublist (c : Cache) (key : String) : (cerase c key).Sublist c :=
  List.filter_sublist c

theorem mem_keys_cerase (c : Cache) (a key : String)
    (ha : a ∈ c.map Prod.fst) (hne : a ≠ key) :
    a ∈ (cerase c key).map Prod.fst := by
  obtain ⟨p, hp, hpa⟩ := List.mem_map.mp ha
  refine List.mem_map.mpr ⟨p, ?_, hpa⟩
  refine List.mem_filter.mpr ⟨hp, ?_⟩
  simp only [decide_eq_true_eq]
  rw [hpa]
  exact hne

theorem fold_erase_length :
    ∀ (E : List (String × CacheEntry)) (c : Cache),
      (c.map Prod.fst).Nodup → (E.map Prod.fst).Nodup →
      (∀ p ∈ E, p.1 ∈ c.map Prod.fst) →
      (E.foldl (fun acc p => cerase acc p.1) c).length + E.length = c.length := by
  intro E
  induction E with
  | nil => intro c _ _ _; simp
  | cons p E' ih =>
    intro c hcnd hend hmem
    rw [List.map_cons, List.nodup_cons] at hend
    rw [List.foldl_cons]
    have hp : p.1 ∈ c.map Prod.fst := hmem p (List.mem_cons_self _ _)
    have hc' : ((cerase c p.1).map Prod.fst).Nodup :=
      ((cerase_sublist c p.1).map Prod.fst).nodup hcnd
    have hmem' : ∀ q ∈ E', q.1 ∈ (cerase c p.1).map Prod.fst := by
      intro q hq
      refine mem_keys_cerase c q.1 p.1 (hmem q (List.mem_cons_of_mem _ hq)) ?_
      intro hqp
      exact hend.1 (by rw [← hqp]; exact List.mem_map.mpr ⟨q, hq, rfl⟩)
    have h1 := ih (cerase c p.1) hc' hend.2 hmem'
    have h2 := cerase_length_mem c p.1 hp hcnd
    rw [List.length_cons]
    omega

theorem cset_length_le (c : Cache) (key : String) (e : CacheEntry) :
    (cset c key e).length ≤ c.length + 1 := by
  unfold cset
  split
  · rw [List.length_map]
    omega
  · rw [List.length_append]
    simp

/-- C8 -- Amended: provided the configured maximum cache size is at
least 1 (and the cache's keys are distinct, as Python dict keys are), a
store at capacity first evicts the oldest `max(1, n // 10)` entries of
the timestamp-sorted (stably, ascending) item list and then inserts, so
every store preserves `len(cache) <= max_cache_size`.  The sorted
eviction order is witnessed by the permutation and pairwise-ordering
conjuncts.  (As stated, the claim fails for `max_cache_size = 0`; see
the counterexample.) -/
theorem claim_C8 (cfg : Config) (cache : Cache) (key : String) (s : List Source) (now : ℚ) :
    ((pySortTs cache).Perm cache ∧
      (pySortTs cache).Pairwise (fun a b => a.2.timestamp ≤ b.2.timestamp)) ∧
    (1 ≤ cfg.max_cache_size → (cache.map Prod.fst).Nodup →
      cache.length ≤ cfg.max_cache_size →
      (store_in_cache cfg cache key s now).length ≤ cfg.max_cache_size) := by
  refine ⟨⟨pySortTs_perm cache, pySortTs_pairwise cache⟩, ?_⟩
  intro hmax hnd hlen
  unfold store_in_cache
  by_cases hen : cfg.cache_enabled
  · rw [if_neg (by simp [hen])]
    dsimp only
    by_cases hcap : cache.length ≥ cfg.max_cache_size
    · rw [if_pos hcap]
      have hlencache : (pySortTs cache).length = cache.length :=
        (pySortTs_perm cache).length_eq
      have hsnd : ((pySortTs cache).map Prod.fst).Nodup :=
        (((pySortTs_perm cache).map Prod.fst).nodup_iff).mpr hnd
      have hEnd : (((pySortTs cache).take (max 1 ((pySortTs cache).length / 10))).map
          Prod.fst).Nodup :=
        ((List.take_sublist _ _).map Prod.fst).nodup hsnd
      have hmemE : ∀ p ∈ (pySortTs cache).take (max 1 ((pySortTs cache).length / 10)),
          p.1 ∈ cache.map Prod.fst := by
        intro p hp
        have hp2 : p ∈ pySortTs cache := List.mem_of_mem_take hp
        have hp3 : p ∈ cache := (pySortTs_perm cache).mem_iff.mp hp2
        exact List.mem_map.mpr ⟨p, hp3, rfl⟩
      have hfold := fold_erase_length _ cache hnd hEnd hmemE
      have hElen : ((pySortTs cache).take (max 1 ((pySortTs cache).length / 10))).length =
          min (max 1 ((pySortTs cache).length / 10)) cache.length := by
        rw [List.length_take, hlencache]
      have hcset := cset_length_le
        (((pySortTs cache).take (max 1 ((pySortTs cache).length / 10))).foldl
          (fun c p => cerase c p.1) cache) key (CacheEntry.mk s now 0)
      have h1 : 1 ≤ max 1 ((pySortTs cache).length / 10) := le_max_left _ _
      omega
    · rw [if_neg hcap]
      have := cset_length_le cache key (CacheEntry.mk s now 0)
      omega
  · rw [if_pos (by simp [hen])]
    exact hlen

/-- C8 counterexample -- with `max_cache_size = 0` the cache "has
reached the configured maximum" (0 ≥ 0), the eviction sweep removes
`max(1, 0 // 10) = 1` entries from an empty list — i.e. nothing — and
the insert then makes the cache hold 1 > 0 entries: a store does not
preserve the claimed bound. -/
theorem claim_C8_counterexample :
    ([] : Cache).length ≤ (Config.mk 10 10 0.7 0.6 0.4 true 300 0).max_cache_size ∧
    (store_in_cache (Config.mk 10 10 0.7 0.6 0.4 true 300 0) [] "k" [] 0).length >
      (Config.mk 10 10 0.7 0.6 0.4 true 300 0).max_cache_size := by
  constructor
  · decide
  · decide

theorem claim_C8_witness :
    (store_in_cache {} [("a", CacheEntry.mk [] 0 0)] "k" [] 1).length ≤
      ({} : Config).max_cache_size :=
  (claim_C8 {} [("a", CacheEntry.mk [] 0 0)] "k" [] 1).2 (by decide) (by decide) (by decide)

/-- C10 -- The graph converter emits a Source for an entity only when
its keyword-overlap relevance strictly exceeds 0.1 (checked before the
graph weight is applied; the emitted source carries `relevance *
graph_weight`); an entity whose name, description and property values
share no whitespace-separated keyword with the query has relevance 0,
and if no entity clears the gate the conversion is empty. -/
theorem claim_C10 (cfg : Config) (g : GraphQueryResult) (query : String) :
    (∀ s ∈ convert_graph_to_sources cfg g query,
      ∃ e ∈ g.entities, 0.1 < calculate_graph_relevance e (keywordSet query) ∧
        s = mkGraphSource cfg g (keywordSet query) e ∧
        s.relevance_score = calculate_graph_relevance e (keywordSet query) * cfg.graph_weight) ∧
    (∀ e ∈ g.entities,
      Disjoint (keywordSet query) (keywordSet e.name) →
      (∀ d, e.description = some d → Disjoint (keywordSet query) (keywordSet d)) →
      Disjoint (keywordSet query)
        ((pyWords (pyJoin " " (e.properties.map (fun p => pyLower p.2)))).toFinset) →
      calculate_graph_relevance e (keywordSet query) = 0) ∧
    ((∀ e ∈ g.entities, calculate_graph_relevance e (keywordSet query) ≤ 0.1) →
      convert_graph_to_sources cfg g query = []) := by
  refine ⟨?_, ?_, ?_⟩
  · intro s hs
    unfold convert_graph_to_sources at hs
    obtain ⟨e, he, hsome⟩ := List.mem_filterMap.mp hs
    split at hsome
    · rename_i hgate
      refine ⟨e, he, hgate, (Option.some_inj.mp hsome).symm, ?_⟩
      rw [← Option.some_inj.mp hsome]
      rfl
    · cases hsome
  · intro e _ hname hdesc hprops
    unfold calculate_graph_relevance
    dsimp only
    rw [Finset.disjoint_iff_inter_eq_empty] at hname hprops
    have hn0 : ¬ ((keywordSet query ∩ keywordSet e.name).card > 0) := by
      rw [hname]
      simp
    have hp0 : ¬ ((keywordSet query ∩
        (pyWords (pyJoin " " (List.map (fun p => pyLower p.2) e.properties))).toFinset).card
          > 0) := by
      rw [hprops]
      simp
    rw [if_neg hn0]
    have hgoal : ∀ x : ℚ, x = 0 → pyMin x 1 = 0 := by
      intro x hx
      rw [hx]
      unfold pyMin
      rw [if_pos (by norm_num)]
    cases hde : e.description with
    | none =>
      dsimp only
      apply hgoal
      split <;> rfl
    | some d =>
      have hd0 : ¬ ((keywordSet query ∩ keywordSet d).card > 0) := by
        have hdd := hdesc d hde
        rw [Finset.disjoint_iff_inter_eq_empty] at hdd
        rw [hdd]
        simp
      dsimp only
      apply hgoal
      have hscore2 : (if d ≠ "" then
          (if (keywordSet query ∩ keywordSet d).card > 0 then
            (0 : ℚ) + 0.3 * (((keywordSet query ∩ keywordSet d).card : ℚ) /
              ((keywordSet query).card : ℚ))
          else (0 : ℚ))
        else (0 : ℚ)) = (0 : ℚ) := by
        split <;> rfl
      rw [hscore2]
      split <;> rfl
  · intro hall
    unfold convert_graph_to_sources
    rw [List.filterMap_eq_nil_iff]
    intro e he
    rw [if_neg (not_lt.mpr (hall e he))]

unseal Rat.mul Rat.add Rat.sub Rat.ofScientific Rat.inv in
theorem claim_C10_witness :
    convert_graph_to_sources {}
      (GraphQueryResult.mk
        [GraphEntity.mk "e1" "alpha beta" "Concept" (some "gamma") [("k", "delta")]] [])
      "xyz query" = [] :=
  (claim_C10 {}
    (GraphQueryResult.mk
      [GraphEntity.mk "e1" "alpha beta" "Concept" (some "gamma") [("k", "delta")]] [])
    "xyz query").2.2 (by decide)

unseal Rat.mul Rat.add Rat.sub Rat.ofScientific Rat.inv in
/-- C4 counterexample -- the spec promises value/copy semantics: no
mutation by the caller on the returned list or its Source objects can
change the sources held in the cache.  But the hit slice of an entry
storing address 0 contains address 0 itself, and overwriting the object
at address 0 (as a caller field assignment on the returned source does)
changes the sources the cache entry denotes. -/
theorem claim_C4_counterexample :
    (0 : Addr) ∈ hitSlice (get_from_cache_ref (CacheEntryRef.mk [0] 0 0)) 5 ∧
    cachedSources
        (writeHeap (fun _ => Source.mk "vector" "c" 1 []) 0 (Source.mk "vector" "c" 0 []))
        (CacheEntryRef.mk [0] 0 0) ≠
      cachedSources (fun _ => Source.mk "vector" "c" 1 []) (CacheEntryRef.mk [0] 0 0) := by
  constructor
  · decide
  · decide

/-- C4 (amended) -- a cache hit returns a fresh list (the slice
`cached_sources[:max_sources]` of the stored list), so list-level
operations by the caller never change which addresses the entry stores;
but the `Source` objects are shared by reference, not copied: every
address in the returned slice is an address of the stored entry, writes
at addresses outside the entry leave the entry's sources unchanged,
and a write at a shared address is visible in the sources the cache
entry denotes. -/
theorem claim_C4 (h : Heap) (entry : CacheEntryRef) (m : Nat) (a : Addr) (v : Source) :
    (∀ x ∈ hitSlice (get_from_cache_ref entry) m, x ∈ entry.sources) ∧
    (a ∉ entry.sources → cachedSources (writeHeap h a v) entry = cachedSources h entry) ∧
    (a ∈ entry.sources → v ∈ cachedSources (writeHeap h a v) entry) := by
  refine ⟨?_, ?_, ?_⟩
  · intro x hx
    unfold hitSlice get_from_cache_ref at hx
    exact List.take_subset m entry.sources hx
  · intro ha
    unfold cachedSources
    apply List.map_congr_left
    intro x hx
    unfold writeHeap
    rw [if_neg]
    intro hxa
    exact ha (hxa ▸ hx)
  · intro ha
    unfold cachedSources
    refine List.mem_map.mpr ⟨a, ha, ?_⟩
    unfold writeHeap
    rw [if_pos rfl]

/-- C4 witness: a write at the single stored address is visible in the
entry's denoted sources. -/
theorem claim_C4_witness :
    Source.mk "vector" "c" 0 [] ∈
      cachedSources
        (writeHeap (fun _ => Source.mk "vector" "c" 1 []) 0 (Source.mk "vector" "c" 0 []))
        (CacheEntryRef.mk [0] 0 0) :=
  (claim_C4 (fun _ => Source.mk "vector" "c" 1 []) (CacheEntryRef.mk [0] 0 0) 5 0
      (Source.mk "vector" "c" 0 [])).2.2 (by decide)

end Oracle
